import Mathlib

/-!
# Verification of the AllkNN core (mlpack `allknn` tool)

A shallow embedding of the k-nearest-neighbor search pipeline of the
`allknn` executable (`src/mlpack/methods/neighbor_search/allknn_main.cpp`)
together with the spatial-index core it drives (hyper-rectangle bounds,
binary space tree, single-tree / dual-tree / naive traversals, candidate
sets, index remapping).  The driver `allknn_main.cpp` is embedded from its
source; the index core (HRectBound, BinarySpaceTree, NeighborSearch) is not
part of the excerpt, so those components are modelled from the design
specification, as marked in the doc comments below.

Real-valued distances are modelled by *squared* Euclidean distances over
`ℚ`.  Squaring is a strictly monotone bijection on nonnegative reals, so
every comparison (pruning tests, sorted order, worst-distance tests) and
every equality of distances holds for the squared form exactly when it
holds for the Euclidean form; the squared form keeps all definitions
executable and all concrete statements decidable.
-/

namespace AllKnn

/-- A point is the column of a dense matrix: one rational per dimension. -/
abbrev Point := List ℚ

/-- Squared Euclidean distance between two points (componentwise). -/
def dist2 (x y : Point) : ℚ :=
  (List.zipWith (fun a b => (a - b) ^ 2) x y).sum

theorem dist2_nonneg (x y : Point) : 0 ≤ dist2 x y := by
  unfold dist2
  induction x generalizing y with
  | nil => simp
  | cons a xs ih =>
    cases y with
    | nil => simp
    | cons b ys =>
      simp only [List.zipWith_cons_cons, List.sum_cons]
      have h1 : (0:ℚ) ≤ (a - b) ^ 2 := sq_nonneg _
      have h2 := ih ys
      linarith

theorem dist2_comm (x y : Point) : dist2 x y = dist2 y x := by
  unfold dist2
  induction x generalizing y with
  | nil => cases y <;> simp
  | cons a xs ih =>
    cases y with
    | nil => simp
    | cons b ys =>
      simp only [List.zipWith_cons_cons, List.sum_cons, ih ys]
      ring_nf

/-- One dimension of an axis-aligned hyper-rectangle bound: `(lo, hi)`. -/
abbrev Dim := ℚ × ℚ

/-- Modelled from the spec: the axis-aligned hyper-rectangle bound
(`HRectBound<2>`, absent from the excerpt): one closed interval per
dimension. -/
abbrev HRect := List Dim

/-- Membership of a point in the region of a hyper-rectangle bound
(componentwise, with matching dimension counts). -/
def InReg (b : HRect) (p : Point) : Prop :=
  List.Forall₂ (fun lh x => lh.1 ≤ x ∧ x ≤ lh.2) b p

instance (b : HRect) (p : Point) : Decidable (InReg b p) := by
  unfold InReg; infer_instance

/-- Squared contribution of one dimension to the point-to-bound minimum
distance: distance from coordinate `x` to the interval `lh`. -/
def dimMinSq (x : ℚ) (lh : Dim) : ℚ :=
  if x < lh.1 then (lh.1 - x) ^ 2
  else if lh.2 < x then (x - lh.2) ^ 2
  else 0

/-- Squared contribution of one dimension to the point-to-bound maximum
distance: the farthest interval endpoint from `x`. -/
def dimMaxSq (x : ℚ) (lh : Dim) : ℚ :=
  max ((x - lh.1) ^ 2) ((x - lh.2) ^ 2)

/-- Squared contribution of one dimension to the bound-to-bound minimum
distance: the gap between the two intervals. -/
def dimMinSqBB (a b : Dim) : ℚ :=
  if a.2 < b.1 then (b.1 - a.2) ^ 2
  else if b.2 < a.1 then (a.1 - b.2) ^ 2
  else 0

/-- Modelled from the spec: `MinDistance(point)` of the hyper-rectangle
bound, as a squared distance. -/
def minDistHR (q : Point) (b : HRect) : ℚ :=
  (List.zipWith dimMinSq q b).sum

/-- Modelled from the spec: `MaxDistance(point)` of the hyper-rectangle
bound, as a squared distance. -/
def maxDistHR (q : Point) (b : HRect) : ℚ :=
  (List.zipWith dimMaxSq q b).sum

/-- Modelled from the spec: `MinDistance(otherBound)` between two
hyper-rectangle bounds, as a squared distance. -/
def minDistBB (a b : HRect) : ℚ :=
  (List.zipWith dimMinSqBB a b).sum

theorem dimMinSq_sound (x y : ℚ) (lh : Dim) (hy : lh.1 ≤ y ∧ y ≤ lh.2) :
    dimMinSq x lh ≤ (x - y) ^ 2 := by
  obtain ⟨h1, h2⟩ := hy
  unfold dimMinSq
  split
  · next h =>
    have : lh.1 - x ≤ y - x := by linarith
    calc (lh.1 - x) ^ 2 ≤ (y - x) ^ 2 := by
          apply pow_le_pow_left₀ (by linarith) this
      _ = (x - y) ^ 2 := by ring
  · split
    · next h h2' =>
      have : x - lh.2 ≤ x - y := by linarith
      apply pow_le_pow_left₀ (by linarith) this
    · exact sq_nonneg _

theorem dimMaxSq_sound (x y : ℚ) (lh : Dim) (hy : lh.1 ≤ y ∧ y ≤ lh.2) :
    (x - y) ^ 2 ≤ dimMaxSq x lh := by
  obtain ⟨h1, h2⟩ := hy
  unfold dimMaxSq
  rcases le_total y x with h | h
  · have hle : x - y ≤ x - lh.1 := by linarith
    have := pow_le_pow_left₀ (by linarith : (0:ℚ) ≤ x - y) hle 2
    exact le_max_of_le_left this
  · have hle : y - x ≤ lh.2 - x := by linarith
    have h0 : (x - y) ^ 2 = (y - x) ^ 2 := by ring
    have h1' : (lh.2 - x) ^ 2 = (x - lh.2) ^ 2 := by ring
    have := pow_le_pow_left₀ (by linarith : (0:ℚ) ≤ y - x) hle 2
    rw [h0]
    exact le_max_of_le_right (by linarith [this, h1'.le, h1'.ge])

theorem dimMinSqBB_sound (a b : Dim) (x y : ℚ)
    (hx : a.1 ≤ x ∧ x ≤ a.2) (hy : b.1 ≤ y ∧ y ≤ b.2) :
    dimMinSqBB a b ≤ (x - y) ^ 2 := by
  obtain ⟨hx1, hx2⟩ := hx
  obtain ⟨hy1, hy2⟩ := hy
  unfold dimMinSqBB
  split
  · next h =>
    have hle : b.1 - a.2 ≤ y - x := by linarith
    calc (b.1 - a.2) ^ 2 ≤ (y - x) ^ 2 := pow_le_pow_left₀ (by linarith) hle 2
      _ = (x - y) ^ 2 := by ring
  · split
    · next h h' =>
      have hle : a.1 - b.2 ≤ x - y := by linarith
      exact pow_le_pow_left₀ (by linarith) hle 2
    · exact sq_nonneg _

/-- Soundness of the point-to-bound minimum distance: it never exceeds the
squared distance to any point inside the bound. -/
theorem minDistHR_sound (q y : Point) (b : HRect) (hy : InReg b y) :
    minDistHR q b ≤ dist2 q y := by
  unfold minDistHR dist2
  induction hy generalizing q with
  | nil => cases q <;> simp
  | @cons lh p bs ys hmem _ ih =>
    cases q with
    | nil => simp
    | cons a qs =>
      simp only [List.zipWith_cons_cons, List.sum_cons]
      exact add_le_add (dimMinSq_sound a p lh hmem) (ih qs)

/-- Soundness of the point-to-bound maximum distance: it is at least the
squared distance to any point inside the bound, provided the bound has no
more dimensions than the query (so no bound dimension is ignored). -/
theorem maxDistHR_sound (q y : Point) (b : HRect) (hy : InReg b y)
    (hq : y.length ≤ q.length) :
    dist2 q y ≤ maxDistHR q b := by
  unfold maxDistHR dist2
  induction hy generalizing q with
  | nil => cases q <;> simp
  | @cons lh p bs ys hmem _ ih =>
    cases q with
    | nil => simp at hq
    | cons a qs =>
      simp only [List.zipWith_cons_cons, List.sum_cons]
      simp only [List.length_cons, Nat.succ_le_succ_iff] at hq
      exact add_le_add (dimMaxSq_sound a p lh hmem) (ih qs hq)

/-- Soundness of the bound-to-bound minimum distance: it never exceeds the
squared distance between any two points inside the respective bounds. -/
theorem minDistBB_sound (a b : HRect) (x y : Point)
    (hx : InReg a x) (hy : InReg b y) :
    minDistBB a b ≤ dist2 x y := by
  unfold minDistBB dist2
  induction hx generalizing b y with
  | nil => cases hy <;> simp
  | @cons lh u as xs hmemx _ ih =>
    cases hy with
    | nil => simp
    | @cons lh2 v bs ys hmemy htl =>
      simp only [List.zipWith_cons_cons, List.sum_cons]
      exact add_le_add (dimMinSqBB_sound lh lh2 u v hmemx hmemy) (ih bs ys htl)

/-! ## Candidate set (spec section 4.4)

Modelled from the spec: the per-query candidate set / result accumulator
(the `SortPolicy`-driven insertion of `NeighborSearch`, absent from the
excerpt): up to `k` `(reference index, squared distance)` pairs kept sorted
ascending by distance, with stable insertion (a tie goes after the equal
entries already present). -/

/-- One candidate entry: `(reference index, squared distance)`. -/
abbrev Entry := ℕ × ℚ

/-- A candidate list, sorted ascending by distance when well formed. -/
abbrev Cand := List Entry

/-- Candidate lists are sorted weakly ascending by their distance. -/
abbrev CandSorted (c : Cand) : Prop :=
  List.Pairwise (fun a b : Entry => a.2 ≤ b.2) c

/-- Stable sorted insertion: the new entry goes after all entries with an
equal or smaller distance. -/
def insertCand (p : Entry) : Cand → Cand
  | [] => [p]
  | q :: rest => if p.2 < q.2 then p :: q :: rest else q :: insertCand p rest

/-- Distance of the last (worst) entry, `⊤` for an empty list. -/
def lastD (c : Cand) : WithTop ℚ :=
  match c.getLast? with
  | some e => (e.2 : WithTop ℚ)
  | none => ⊤

/-- Modelled from the spec: `WorstDistance()` — `+∞` until `k` entries are
present, afterwards the distance of the k-th (worst) entry. -/
def worstD (k : ℕ) (c : Cand) : WithTop ℚ :=
  if c.length < k then ⊤ else lastD c

/-- Modelled from the spec: `Offer(distance, index)` — insert in sorted
position while fewer than `k` entries are held; once full, evict the worst
entry and insert only when the offered distance beats the current worst;
otherwise leave the set unchanged. -/
def offer (k : ℕ) (c : Cand) (e : Entry) : Cand :=
  if c.length < k then insertCand e c
  else if (e.2 : WithTop ℚ) < worstD k c then insertCand e c.dropLast
  else c

theorem insertCand_perm (p : Entry) (c : Cand) :
    List.Perm (insertCand p c) (p :: c) := by
  induction c with
  | nil => exact List.Perm.refl _
  | cons q rest ih =>
    unfold insertCand
    split
    · exact List.Perm.refl _
    · exact (List.Perm.cons q ih).trans (List.Perm.swap p q rest)

theorem mem_insertCand {x p : Entry} {c : Cand} :
    x ∈ insertCand p c ↔ x = p ∨ x ∈ c := by
  rw [(insertCand_perm p c).mem_iff]; simp

theorem insertCand_length (p : Entry) (c : Cand) :
    (insertCand p c).length = c.length + 1 := by
  simpa using (insertCand_perm p c).length_eq

theorem insertCand_ne_nil (p : Entry) (c : Cand) : insertCand p c ≠ [] := by
  intro h
  have := insertCand_length p c
  rw [h] at this
  simp at this

theorem insertCand_sorted (p : Entry) (c : Cand) (h : CandSorted c) :
    CandSorted (insertCand p c) := by
  induction c with
  | nil => simp [insertCand]
  | cons q rest ih =>
    obtain ⟨hq, hrest⟩ := List.pairwise_cons.mp h
    unfold insertCand
    split
    · next hlt =>
      refine List.Pairwise.cons ?_ (List.Pairwise.cons hq hrest)
      intro b hb
      rcases List.mem_cons.mp hb with rfl | hb2
      · exact le_of_lt hlt
      · exact le_trans (le_of_lt hlt) (hq b hb2)
    · next hge =>
      refine List.Pairwise.cons ?_ (ih hrest)
      intro b hb
      rcases mem_insertCand.mp hb with rfl | hb2
      · exact le_of_not_lt hge
      · exact hq b hb2

theorem mem_le_lastD (c : Cand) (hs : CandSorted c) :
    ∀ e ∈ c, (e.2 : WithTop ℚ) ≤ lastD c := by
  induction c with
  | nil => intro e he; simp at he
  | cons q rest ih =>
    obtain ⟨hq, hrest⟩ := List.pairwise_cons.mp hs
    intro e he
    cases rest with
    | nil =>
      rcases List.mem_cons.mp he with rfl | h
      · simp [lastD]
      · simp at h
    | cons r rest2 =>
      have hlast : lastD (q :: r :: rest2) = lastD (r :: rest2) := by
        simp [lastD, List.getLast?]
      rw [hlast]
      rcases List.mem_cons.mp he with rfl | h
      · have hmem : r ∈ r :: rest2 := List.mem_cons_self r rest2
        have h1 : (e.2 : WithTop ℚ) ≤ (r.2 : WithTop ℚ) := by
          exact_mod_cast hq r hmem
        exact le_trans h1 (ih hrest r hmem)
      · exact ih hrest e h

theorem lastD_le_of_forall (c : Cand) (hne : c ≠ []) (w : WithTop ℚ)
    (h : ∀ e ∈ c, (e.2 : WithTop ℚ) ≤ w) : lastD c ≤ w := by
  have hlast := List.getLast?_eq_getLast c hne
  rw [lastD, hlast]
  exact h _ (List.getLast_mem hne)

theorem dropLast_sorted (c : Cand) (hs : CandSorted c) :
    CandSorted c.dropLast :=
  hs.sublist (List.dropLast_sublist c)

theorem mem_of_mem_dropLast {c : Cand} {x : Entry} (h : x ∈ c.dropLast) :
    x ∈ c :=
  (List.dropLast_sublist c).mem h

theorem mem_dropLast_or_last {c : Cand} {x : Entry} (hne : c ≠ [])
    (h : x ∈ c) : x ∈ c.dropLast ∨ x = c.getLast hne := by
  have := List.dropLast_append_getLast hne
  rw [← this] at h
  rcases List.mem_append.mp h with h1 | h1
  · exact Or.inl h1
  · simp at h1; exact Or.inr h1

theorem worstD_eq_top (k : ℕ) (c : Cand) (h : c.length < k) :
    worstD k c = ⊤ := by simp [worstD, h]

theorem worstD_eq_lastD (k : ℕ) (c : Cand) (h : ¬ c.length < k) :
    worstD k c = lastD c := by simp [worstD, h]

theorem full_of_worstD_le (k : ℕ) (c : Cand) (d : ℚ)
    (h : worstD k c ≤ (d : WithTop ℚ)) : k ≤ c.length := by
  by_contra hlt
  rw [worstD_eq_top k c (by omega)] at h
  exact (WithTop.not_top_le_coe d) h

/-- After an eviction step the worst distance does not increase past the
old last entry. -/
theorem worstD_evict_le (k : ℕ) (c : Cand) (e : Entry) (hs : CandSorted c)
    (hfull : ¬ c.length < k) (hd : (e.2 : WithTop ℚ) < lastD c) :
    worstD k (insertCand e c.dropLast) ≤ lastD c := by
  rcases le_or_lt k (insertCand e c.dropLast).length with hge | hlt
  · rw [worstD_eq_lastD k _ (by omega)]
    apply lastD_le_of_forall _ (insertCand_ne_nil e _)
    intro x hx
    rcases mem_insertCand.mp hx with rfl | hx2
    · exact le_of_lt hd
    · exact mem_le_lastD c hs x (mem_of_mem_dropLast hx2)
  · exfalso
    rw [insertCand_length, List.length_dropLast] at hlt
    omega

/-- Offering never increases the worst distance. -/
theorem worstD_offer_le (k : ℕ) (c : Cand) (e : Entry) (hs : CandSorted c) :
    worstD k (offer k c e) ≤ worstD k c := by
  unfold offer
  split
  · next h => rw [worstD_eq_top k c h]; exact le_top
  · next h =>
    split
    · next hd =>
      rw [worstD_eq_lastD k c h] at hd ⊢
      exact worstD_evict_le k c e hs h hd
    · exact le_refl _

theorem offer_sorted (k : ℕ) (c : Cand) (e : Entry) (hs : CandSorted c) :
    CandSorted (offer k c e) := by
  unfold offer
  split
  · exact insertCand_sorted e c hs
  · split
    · exact insertCand_sorted e c.dropLast (dropLast_sorted c hs)
    · exact hs

theorem offer_length_le (k : ℕ) (hk : 0 < k) (c : Cand) (e : Entry)
    (h : c.length ≤ k) : (offer k c e).length ≤ k := by
  unfold offer
  split
  · next hlt => rw [insertCand_length]; omega
  · next hge =>
    split
    · rw [insertCand_length, List.length_dropLast]; omega
    · exact h

theorem offer_length_ge (k : ℕ) (c : Cand) (e : Entry) :
    c.length ≤ (offer k c e).length := by
  unfold offer
  split
  · rw [insertCand_length]; omega
  · split
    · rw [insertCand_length, List.length_dropLast]; omega
    · exact le_refl _

theorem offer_mem_src (k : ℕ) (c : Cand) (e : Entry) :
    ∀ x ∈ offer k c e, x = e ∨ x ∈ c := by
  intro x hx
  unfold offer at hx
  split at hx
  · rcases mem_insertCand.mp hx with rfl | h
    · exact Or.inl rfl
    · exact Or.inr h
  · split at hx
    · rcases mem_insertCand.mp hx with rfl | h
      · exact Or.inl rfl
      · exact Or.inr (mem_of_mem_dropLast h)
    · exact Or.inr hx

theorem offer_nodup (k : ℕ) (c : Cand) (e : Entry)
    (h : (c.map Prod.fst).Nodup) (he : e.1 ∉ c.map Prod.fst) :
    ((offer k c e).map Prod.fst).Nodup := by
  have hins : ∀ (c2 : Cand), (c2.map Prod.fst).Nodup → e.1 ∉ c2.map Prod.fst →
      ((insertCand e c2).map Prod.fst).Nodup := by
    intro c2 h2 he2
    have hperm := (insertCand_perm e c2).map Prod.fst
    rw [List.Perm.nodup_iff hperm]
    simp only [List.map_cons, List.nodup_cons]
    exact ⟨he2, h2⟩
  unfold offer
  split
  · exact hins c h he
  · split
    · apply hins c.dropLast
      · exact ((List.dropLast_sublist c).map Prod.fst).nodup h
      · intro hmem
        apply he
        exact ((List.dropLast_sublist c).map Prod.fst).mem hmem
    · exact h

/-- Coverage of an offered pair: either it is in the candidate list or its
distance is at least the list's worst distance. -/
theorem offer_cov_pair (k : ℕ) (c : Cand) (e y : Entry) (hs : CandSorted c)
    (h : y ∈ c ∨ worstD k c ≤ (y.2 : WithTop ℚ)) :
    y ∈ offer k c e ∨ worstD k (offer k c e) ≤ (y.2 : WithTop ℚ) := by
  rcases h with hmem | hw
  · by_cases hne : c = []
    · subst hne; simp at hmem
    · unfold offer
      split
      · exact Or.inl (mem_insertCand.mpr (Or.inr hmem))
      · next hfull =>
        split
        · next hd =>
          rcases mem_dropLast_or_last hne hmem with h1 | h1
          · exact Or.inl (mem_insertCand.mpr (Or.inr h1))
          · right
            rw [worstD_eq_lastD k c hfull] at hd
            have hy : (y.2 : WithTop ℚ) = lastD c := by
              rw [lastD, List.getLast?_eq_getLast c hne, h1]
            rw [hy]
            exact worstD_evict_le k c e hs hfull hd
        · exact Or.inl hmem
  · exact Or.inr (le_trans (worstD_offer_le k c e hs) hw)

/-- A freshly offered entry is covered by the result. -/
theorem offer_cov_self (k : ℕ) (c : Cand) (e : Entry) :
    e ∈ offer k c e ∨ worstD k (offer k c e) ≤ (e.2 : WithTop ℚ) := by
  unfold offer
  split
  · exact Or.inl (mem_insertCand.mpr (Or.inl rfl))
  · split
    · exact Or.inl (mem_insertCand.mpr (Or.inl rfl))
    · next h => exact Or.inr (le_of_not_lt h)

/-! ## Spatial tree (spec section 4.2)

Modelled from the spec: the binary space-partitioning tree
(`BinarySpaceTree`, absent from the excerpt).  A node owns a bound and two
children; a leaf owns a contiguous run of (original index, point) pairs.
The construction mirrors the spec: when a node holds at most `leafSize`
points it becomes a leaf; otherwise the dimension of maximum spread of the
bound is split at its midpoint and the columns are partitioned into two
contiguous ranges (the permutation is carried by keeping each point paired
with its original column index).  Recursion is driven by a fuel argument
equal to the number of points, which strictly bounds the recursion depth;
if fuel were ever exhausted the node simply stays a leaf, which keeps every
invariant used below. -/

inductive Tree where
  | leaf (b : Option HRect) (l : List (ℕ × Point))
  | node (b : Option HRect) (l r : Tree)
deriving DecidableEq

/-- All (original index, point) pairs owned by a subtree, left to right:
the contiguous range of the (reordered) point matrix it covers. -/
def Tree.pts : Tree → List (ℕ × Point)
  | .leaf _ l => l
  | .node _ l r => l.pts ++ r.pts

/-- The bound stored at the root of a subtree. -/
def Tree.bnd : Tree → Option HRect
  | .leaf b _ => b
  | .node b _ _ => b

/-- Number of tree nodes (used as fuel for the dual-tree recursion). -/
def Tree.sz : Tree → ℕ
  | .leaf _ _ => 1
  | .node _ l r => l.sz + r.sz + 1

theorem Tree.sz_pos (t : Tree) : 0 < t.sz := by
  cases t <;> simp [Tree.sz]

/-- Membership in the (possibly absent) region of an optional bound; the
degenerate empty bound contains no point. -/
def InRegO : Option HRect → Point → Prop
  | none, _ => False
  | some b, p => InReg b p

/-- Modelled from the spec: `MinDistance(point)` lifted to the optional
bound — the degenerate empty bound returns `+∞`. -/
def minDistO (q : Point) : Option HRect → WithTop ℚ
  | none => ⊤
  | some b => (minDistHR q b : WithTop ℚ)

/-- Modelled from the spec: `MinDistance(otherBound)` lifted to optional
bounds — an empty side returns `+∞`. -/
def minDistBBO : Option HRect → Option HRect → WithTop ℚ
  | none, _ => ⊤
  | some _, none => ⊤
  | some a, some b => (minDistBB a b : WithTop ℚ)

theorem minDistO_sound (q y : Point) (b : Option HRect) (hy : InRegO b y) :
    minDistO q b ≤ (dist2 q y : WithTop ℚ) := by
  cases b with
  | none => exact absurd hy id
  | some b0 =>
    simp only [minDistO, WithTop.coe_le_coe]
    exact minDistHR_sound q y b0 hy

theorem minDistBBO_sound (a b : Option HRect) (x y : Point)
    (hx : InRegO a x) (hy : InRegO b y) :
    minDistBBO a b ≤ (dist2 x y : WithTop ℚ) := by
  cases a with
  | none => exact absurd hx id
  | some a0 =>
    cases b with
    | none => exact absurd hy id
    | some b0 =>
      simp only [minDistBBO, WithTop.coe_le_coe]
      exact minDistBB_sound a0 b0 x y hx hy

/-- Grow a bound to cover one more point (per-dimension min/max). -/
def extendB (b : HRect) (p : Point) : HRect :=
  List.zipWith (fun lh x => (min lh.1 x, max lh.2 x)) b p

/-- The tight bound of a point list: per-dimension min/max, `none` for an
empty list (the degenerate empty bound). -/
def computeBound : List Point → Option HRect
  | [] => none
  | p :: rest => some (rest.foldl extendB (p.map fun x => (x, x)))

theorem extendB_mem_old (b : HRect) (p y : Point) (hy : InReg b y)
    (hlen : b.length ≤ p.length) : InReg (extendB b p) y := by
  unfold extendB
  induction hy generalizing p with
  | nil => cases p <;> simp [InReg]
  | @cons lh x bs ys hmem _ ih =>
    cases p with
    | nil => simp at hlen
    | cons a ps =>
      simp only [List.length_cons, Nat.succ_le_succ_iff] at hlen
      simp only [List.zipWith_cons_cons]
      exact List.Forall₂.cons
        ⟨le_trans (min_le_left _ _) hmem.1, le_trans hmem.2 (le_max_left _ _)⟩
        (ih ps hlen)

theorem extendB_mem_new (b : HRect) (p : Point) (hlen : b.length = p.length) :
    InReg (extendB b p) p := by
  unfold extendB
  induction b generalizing p with
  | nil =>
    cases p with
    | nil => simp [InReg]
    | cons a ps => simp at hlen
  | cons lh bs ih =>
    cases p with
    | nil => simp at hlen
    | cons a ps =>
      simp only [List.length_cons, Nat.succ_inj] at hlen
      simp only [List.zipWith_cons_cons]
      exact List.Forall₂.cons ⟨min_le_right _ _, le_max_right _ _⟩ (ih ps hlen)

theorem extendB_length (b : HRect) (p : Point) (hlen : b.length ≤ p.length) :
    (extendB b p).length = b.length := by
  unfold extendB
  rw [List.length_zipWith]
  omega

theorem selfB_mem (p : Point) : InReg (p.map fun x => (x, x)) p := by
  induction p with
  | nil => simp [InReg]
  | cons a ps ih =>
    simp only [List.map_cons]
    exact List.Forall₂.cons ⟨le_refl a, le_refl a⟩ ih

theorem foldl_extendB_spec (d : ℕ) (rest : List Point) (b : HRect)
    (hb : b.length = d) (hrest : ∀ p ∈ rest, p.length = d) :
    (rest.foldl extendB b).length = d ∧
    (∀ y, InReg b y → InReg (rest.foldl extendB b) y) ∧
    (∀ p ∈ rest, InReg (rest.foldl extendB b) p) := by
  induction rest generalizing b with
  | nil => exact ⟨hb, fun y hy => hy, by simp⟩
  | cons p ps ih =>
    have hp : p.length = d := hrest p (List.mem_cons_self p ps)
    have hlen : b.length ≤ p.length := by omega
    have hext := extendB_length b p hlen
    have hrec := ih (extendB b p) (by omega)
      (fun x hx => hrest x (List.mem_cons_of_mem p hx))
    refine ⟨hrec.1, ?_, ?_⟩
    · intro y hy
      exact hrec.2.1 y (extendB_mem_old b p y hy hlen)
    · intro x hx
      rcases List.mem_cons.mp hx with rfl | hx2
      · exact hrec.2.1 x (extendB_mem_new b x (by omega))
      · exact hrec.2.2 x hx2

/-- Every point of a list lies inside the list's tight bound. -/
theorem computeBound_mem (d : ℕ) (pts : List Point)
    (hd : ∀ p ∈ pts, p.length = d) :
    ∀ p ∈ pts, InRegO (computeBound pts) p := by
  cases pts with
  | nil => simp
  | cons p0 rest =>
    have h0 : p0.length = d := hd p0 (List.mem_cons_self p0 rest)
    have hb : (p0.map fun x => (x, x)).length = d := by
      rw [List.length_map]; exact h0
    have hspec := foldl_extendB_spec d rest (p0.map fun x => (x, x)) hb
      (fun x hx => hd x (List.mem_cons_of_mem p0 hx))
    intro p hp
    rcases List.mem_cons.mp hp with rfl | hp2
    · exact hspec.2.1 p (selfB_mem p)
    · exact hspec.2.2 p hp2

/-- Spread (width) of one bound dimension. -/
def spread (lh : Dim) : ℚ := lh.2 - lh.1

/-- Maximum spread over the bound's dimensions. -/
def maxSpread (b : HRect) : ℚ := (b.map spread).foldr max 0

/-- Modelled from the spec: the split rule — the dimension of maximum
spread, split at the midpoint; `none` when no dimension has positive
spread (all owned points coincide), in which case the node stays a leaf. -/
def chooseSplit (b : HRect) : Option (ℕ × ℚ) :=
  let ms := maxSpread b
  if ms ≤ 0 then none
  else (b.enum.find? fun il => spread il.2 == ms).map
    fun il => (il.1, (il.2.1 + il.2.2) / 2)

/-- Modelled from the spec: recursive construction of the binary space
tree over (original index, point) pairs, with fuel bounding the depth. -/
def buildT (L : ℕ) : ℕ → List (ℕ × Point) → Tree
  | 0, pts => .leaf (computeBound (pts.map Prod.snd)) pts
  | fuel + 1, pts =>
    if pts.length ≤ L then .leaf (computeBound (pts.map Prod.snd)) pts
    else
      match computeBound (pts.map Prod.snd) with
      | none => .leaf none pts
      | some b =>
        match chooseSplit b with
        | none => .leaf (some b) pts
        | some (sd, mid) =>
          let pr := pts.partition fun ip => ip.2.getD sd 0 < mid
          .node (some b) (buildT L fuel pr.1) (buildT L fuel pr.2)

/-- Pair each point with its column index, starting at `i`. -/
def withIdx (i : ℕ) : List Point → List (ℕ × Point)
  | [] => []
  | p :: rest => (i, p) :: withIdx (i + 1) rest

theorem withIdx_map_fst (i : ℕ) (l : List Point) :
    (withIdx i l).map Prod.fst = List.range' i l.length := by
  induction l generalizing i with
  | nil => rfl
  | cons p rest ih => simp [withIdx, List.range'_succ, ih]

theorem withIdx_map_snd (i : ℕ) (l : List Point) :
    (withIdx i l).map Prod.snd = l := by
  induction l generalizing i with
  | nil => rfl
  | cons p rest ih => simp [withIdx, ih]

theorem withIdx_snd_mem (i : ℕ) (l : List Point) :
    ∀ ip ∈ withIdx i l, ip.2 ∈ l := by
  induction l generalizing i with
  | nil => simp [withIdx]
  | cons p rest ih =>
    intro ip hip
    rcases List.mem_cons.mp hip with rfl | h
    · simp
    · exact List.mem_cons_of_mem p (ih (i + 1) ip h)

theorem withIdx_fst_nodup (i : ℕ) (l : List Point) :
    ((withIdx i l).map Prod.fst).Nodup := by
  rw [withIdx_map_fst]
  exact List.nodup_range' _ _

theorem withIdx_length (i : ℕ) (l : List Point) :
    (withIdx i l).length = l.length := by
  induction l generalizing i with
  | nil => rfl
  | cons p rest ih => simp [withIdx, ih]

/-- Build the tree for a raw point list, pairing each point with its
original column index. -/
def build (L : ℕ) (pts : List Point) : Tree :=
  buildT L pts.length (withIdx 0 pts)

/-- The permutation produced by tree construction: position in the
reordered matrix (left-to-right leaf order) to original column index. -/
def oldFromNew (t : Tree) : List ℕ := t.pts.map Prod.fst

/-- Tree construction permutes the point pairs, never invents or drops
any. -/
theorem buildT_perm (L fuel : ℕ) (pts : List (ℕ × Point)) :
    List.Perm (buildT L fuel pts).pts pts := by
  induction fuel generalizing pts with
  | zero => exact List.Perm.refl _
  | succ n ih =>
    unfold buildT
    split
    · exact List.Perm.refl _
    · split
      · exact List.Perm.refl _
      · split
        · exact List.Perm.refl _
        · next sd mid _ =>
          simp only [Tree.pts, List.partition_eq_filter_filter]
          exact ((ih _).append (ih _)).trans (List.filter_append_perm _ pts)

theorem dims_map_snd {d : ℕ} {pts : List (ℕ × Point)}
    (hd : ∀ ip ∈ pts, ip.2.length = d) :
    ∀ p ∈ pts.map Prod.snd, p.length = d := by
  intro p hp
  rcases List.mem_map.mp hp with ⟨ip, hip, rfl⟩
  exact hd ip hip

/-- Well-formed tree: every point owned by a node (directly or through
descendants) lies inside the node's bound. -/
inductive WFT : Tree → Prop
  | leaf (b : Option HRect) (l : List (ℕ × Point))
      (hin : ∀ ip ∈ l, InRegO b ip.2) : WFT (.leaf b l)
  | node (b : Option HRect) (l r : Tree)
      (hin : ∀ ip ∈ (Tree.node b l r).pts, InRegO b ip.2)
      (hl : WFT l) (hr : WFT r) : WFT (.node b l r)

theorem WFT_bnd_mem {t : Tree} (h : WFT t) :
    ∀ ip ∈ t.pts, InRegO t.bnd ip.2 := by
  cases h with
  | leaf b l hin => exact hin
  | node b l r hin hl hr => exact hin

theorem buildT_wf (d L fuel : ℕ) (pts : List (ℕ × Point))
    (hd : ∀ ip ∈ pts, ip.2.length = d) : WFT (buildT L fuel pts) := by
  induction fuel generalizing pts with
  | zero =>
    exact WFT.leaf _ _ fun ip hip =>
      computeBound_mem d _ (dims_map_snd hd) _
        (List.mem_map_of_mem Prod.snd hip)
  | succ n ih =>
    unfold buildT
    split
    · exact WFT.leaf _ _ fun ip hip =>
        computeBound_mem d _ (dims_map_snd hd) _
          (List.mem_map_of_mem Prod.snd hip)
    · split
      · next heq =>
        exact WFT.leaf _ _ fun ip hip => by
          have := computeBound_mem d _
            (dims_map_snd hd) _
            (List.mem_map_of_mem Prod.snd hip)
          rw [heq] at this
          exact this
      · next b heq =>
        split
        · next =>
          exact WFT.leaf _ _ fun ip hip => by
            have := computeBound_mem d _
              (dims_map_snd hd) _
              (List.mem_map_of_mem Prod.snd hip)
            rw [heq] at this
            exact this
        · next sd mid _ =>
          refine WFT.node _ _ _ ?_ ?_ ?_
          · intro ip hip
            have hmem : ip ∈ pts := by
              have h1 := buildT_perm L n
                (pts.partition fun ip => ip.2.getD sd 0 < mid).1
              have h2 := buildT_perm L n
                (pts.partition fun ip => ip.2.getD sd 0 < mid).2
              simp only [Tree.pts, List.mem_append] at hip
              rcases hip with h | h
              · have := h1.mem_iff.mp h
                rw [List.partition_eq_filter_filter] at this
                exact List.mem_of_mem_filter this
              · have := h2.mem_iff.mp h
                rw [List.partition_eq_filter_filter] at this
                exact List.mem_of_mem_filter this
            have := computeBound_mem d _
              (dims_map_snd hd) _
              (List.mem_map_of_mem Prod.snd hmem)
            rw [heq] at this
            exact this
          · apply ih
            intro ip hip
            rw [List.partition_eq_filter_filter] at hip
            exact hd ip (List.mem_of_mem_filter hip)
          · apply ih
            intro ip hip
            rw [List.partition_eq_filter_filter] at hip
            exact hd ip (List.mem_of_mem_filter hip)

/-- When the leaf size covers the whole point set the tree degenerates to
a single leaf holding the points in their original order. -/
theorem buildT_single_leaf (L fuel : ℕ) (pts : List (ℕ × Point))
    (h : pts.length ≤ L) :
    buildT L fuel pts = .leaf (computeBound (pts.map Prod.snd)) pts := by
  cases fuel with
  | zero => rfl
  | succ n => unfold buildT; rw [if_pos h]

/-! ## Traversal engine, part 1 (spec section 4.3)

Modelled from the spec: base-case visitation and the single-tree
depth-first search with distance-bound pruning and best-first child
ordering. -/

/-- Visit a run of reference pairs: offer each one to the candidate list
(the leaf base case of both traversals, and the naive nested loop). -/
def foldOffers (k : ℕ) (q : Point) (c : Cand) (R : List (ℕ × Point)) : Cand :=
  R.foldl (fun c2 ip => offer k c2 (ip.1, dist2 q ip.2)) c

/-- Invariant of a per-query candidate list during a search over the
reference pairs `R0`: sorted ascending, at most `k` entries, pairwise
distinct reference indices, and every entry records the true squared
distance to an actual reference point. -/
structure CInv (k : ℕ) (q : Point) (R0 : List (ℕ × Point)) (c : Cand) : Prop where
  sorted : CandSorted c
  len : c.length ≤ k
  nodup : (c.map Prod.fst).Nodup
  valid : ∀ e ∈ c, ∃ p, (e.1, p) ∈ R0 ∧ e.2 = dist2 q p

/-- A reference pair is covered by a candidate list: either it is recorded
in the list, or its distance is no better than the list's worst distance
(so dropping it cannot lose a nearest neighbor). -/
def Cov (k : ℕ) (q : Point) (c : Cand) (ip : ℕ × Point) : Prop :=
  (ip.1, dist2 q ip.2) ∈ c ∨ worstD k c ≤ ((dist2 q ip.2 : ℚ) : WithTop ℚ)

theorem cov_offer_mono (k : ℕ) (q : Point) (c : Cand) (e : Entry)
    (x : ℕ × Point) (hs : CandSorted c) (h : Cov k q c x) :
    Cov k q (offer k c e) x :=
  offer_cov_pair k c e (x.1, dist2 q x.2) hs h

theorem cov_of_worst_lt (k : ℕ) (q : Point) (c : Cand) (ip : ℕ × Point)
    (h : worstD k c ≤ ((dist2 q ip.2 : ℚ) : WithTop ℚ)) : Cov k q c ip :=
  Or.inr h

theorem cinv_offer (k : ℕ) (hk : 0 < k) (q : Point)
    (R0 : List (ℕ × Point)) (c : Cand) (h : CInv k q R0 c)
    (ip : ℕ × Point) (hmem : ip ∈ R0) (hfresh : ip.1 ∉ c.map Prod.fst) :
    CInv k q R0 (offer k c (ip.1, dist2 q ip.2)) := by
  refine ⟨offer_sorted k c _ h.sorted, offer_length_le k hk c _ h.len,
    offer_nodup k c _ h.nodup hfresh, ?_⟩
  intro e he
  rcases offer_mem_src k c _ e he with rfl | he2
  · exact ⟨ip.2, hmem, rfl⟩
  · exact h.valid e he2

theorem offer_fst_src (k : ℕ) (c : Cand) (e : Entry) :
    ∀ i ∈ (offer k c e).map Prod.fst, i = e.1 ∨ i ∈ c.map Prod.fst := by
  intro i hi
  rcases List.mem_map.mp hi with ⟨x, hx, rfl⟩
  rcases offer_mem_src k c e x hx with rfl | hx2
  · exact Or.inl rfl
  · exact Or.inr (List.mem_map_of_mem Prod.fst hx2)

/-- Contract of one search step over a batch `P` of reference pairs: it
preserves the candidate invariant, only adds indices drawn from `P`,
preserves coverage of previously covered pairs, and covers every pair of
`P`. -/
def SearchOK (k : ℕ) (q : Point) (R0 P : List (ℕ × Point))
    (f : Cand → Cand) : Prop :=
  ∀ c : Cand, CInv k q R0 c →
    (∀ i ∈ c.map Prod.fst, i ∉ P.map Prod.fst) →
    CInv k q R0 (f c) ∧
    (∀ i ∈ (f c).map Prod.fst, i ∈ c.map Prod.fst ∨ i ∈ P.map Prod.fst) ∧
    (∀ x, Cov k q c x → Cov k q (f c) x) ∧
    (∀ ip ∈ P, Cov k q (f c) ip)

/-- Base-case visitation satisfies the search-step contract. -/
theorem foldOffers_ok (k : ℕ) (hk : 0 < k) (q : Point)
    (R0 R : List (ℕ × Point)) (hsub : ∀ ip ∈ R, ip ∈ R0)
    (hnodupR : (R.map Prod.fst).Nodup) :
    SearchOK k q R0 R (fun c => foldOffers k q c R) := by
  induction R with
  | nil =>
    intro c hinv hdisj
    exact ⟨hinv, fun i hi => Or.inl hi, fun x hx => hx, by simp⟩
  | cons ip R2 ih =>
    intro c hinv hdisj
    simp only [List.map_cons, List.nodup_cons] at hnodupR
    have hfresh : ip.1 ∉ c.map Prod.fst := by
      intro hmem
      exact hdisj ip.1 hmem (by simp)
    have hinv2 : CInv k q R0 (offer k c (ip.1, dist2 q ip.2)) :=
      cinv_offer k hk q R0 c hinv ip (hsub ip (by simp)) hfresh
    have hdisj2 : ∀ i ∈ (offer k c (ip.1, dist2 q ip.2)).map Prod.fst,
        i ∉ R2.map Prod.fst := by
      intro i hi
      rcases offer_fst_src k c _ i hi with rfl | hi2
      · exact hnodupR.1
      · intro hcon
        exact hdisj i hi2 (List.mem_cons_of_mem _ hcon)
    have hrec := ih (fun x hx => hsub x (List.mem_cons_of_mem ip hx))
      hnodupR.2 (offer k c (ip.1, dist2 q ip.2)) hinv2 hdisj2
    have h1 : CInv k q R0 (foldOffers k q c (ip :: R2)) := hrec.1
    have h2 : ∀ i ∈ (foldOffers k q c (ip :: R2)).map Prod.fst,
        i ∈ c.map Prod.fst ∨ i ∈ (ip :: R2).map Prod.fst := by
      intro i hi
      rcases hrec.2.1 i hi with hh | hh
      · rcases offer_fst_src k c _ i hh with rfl | hh2
        · exact Or.inr (by simp)
        · exact Or.inl hh2
      · exact Or.inr (List.mem_cons_of_mem _ hh)
    have h3 : ∀ x, Cov k q c x → Cov k q (foldOffers k q c (ip :: R2)) x :=
      fun x hx => hrec.2.2.1 x (cov_offer_mono k q c _ x hinv.sorted hx)
    have h4 : ∀ y ∈ ip :: R2, Cov k q (foldOffers k q c (ip :: R2)) y := by
      intro y hy
      rcases List.mem_cons.mp hy with rfl | hy2
      · apply hrec.2.2.1
        exact offer_cov_self k c (y.1, dist2 q y.2)
      · exact hrec.2.2.2 y hy2
    exact ⟨h1, h2, h3, h4⟩

/-- Sequencing two search steps over disjoint batches. -/
theorem searchOK_seq (k : ℕ) (q : Point) (R0 P1 P2 : List (ℕ × Point))
    (f g : Cand → Cand) (hf : SearchOK k q R0 P1 f)
    (hg : SearchOK k q R0 P2 g)
    (hdisjP : ∀ i ∈ P1.map Prod.fst, i ∉ P2.map Prod.fst) :
    SearchOK k q R0 (P1 ++ P2) (fun c => g (f c)) := by
  intro c hinv hdisj
  simp only [List.map_append, List.mem_append] at hdisj
  have hdisj1 : ∀ i ∈ c.map Prod.fst, i ∉ P1.map Prod.fst := by
    intro i hi hcon
    exact hdisj i hi (Or.inl hcon)
  have h1 := hf c hinv hdisj1
  have hdisj2 : ∀ i ∈ (f c).map Prod.fst, i ∉ P2.map Prod.fst := by
    intro i hi
    rcases h1.2.1 i hi with h | h
    · intro hcon
      exact hdisj i h (Or.inr hcon)
    · exact hdisjP i h
  have h2 := hg (f c) h1.1 hdisj2
  refine ⟨h2.1, ?_, ?_, ?_⟩
  · intro i hi
    simp only [List.map_append, List.mem_append]
    rcases h2.2.1 i hi with h | h
    · rcases h1.2.1 i h with h3 | h3
      · exact Or.inl h3
      · exact Or.inr (Or.inl h3)
    · exact Or.inr (Or.inr h)
  · intro x hx
    exact h2.2.2.1 x (h1.2.2.1 x hx)
  · intro ip hip
    rcases List.mem_append.mp hip with h | h
    · exact h2.2.2.1 _ (h1.2.2.2 ip h)
    · exact h2.2.2.2 ip h

/-- The search-step contract only depends on the batch up to membership. -/
theorem searchOK_congr (k : ℕ) (q : Point) (R0 P1 P2 : List (ℕ × Point))
    (f : Cand → Cand) (hf : SearchOK k q R0 P1 f)
    (hmem : ∀ ip : ℕ × Point, ip ∈ P1 ↔ ip ∈ P2) :
    SearchOK k q R0 P2 f := by
  have hmapm : ∀ i : ℕ, i ∈ P1.map Prod.fst ↔ i ∈ P2.map Prod.fst := by
    intro i
    constructor <;> intro h <;> rcases List.mem_map.mp h with ⟨x, hx, rfl⟩
    · exact List.mem_map_of_mem Prod.fst ((hmem x).mp hx)
    · exact List.mem_map_of_mem Prod.fst ((hmem x).mpr hx)
  intro c hinv hdisj
  have h1 := hf c hinv (fun i hi hcon => hdisj i hi ((hmapm i).mp hcon))
  refine ⟨h1.1, ?_, h1.2.2.1, ?_⟩
  · intro i hi
    rcases h1.2.1 i hi with h | h
    · exact Or.inl h
    · exact Or.inr ((hmapm i).mp h)
  · intro ip hip
    exact h1.2.2.2 ip ((hmem ip).mpr hip)

/-- Modelled from the spec: single-tree depth-first search for one query
point.  At each node the subtree is pruned when the bound's minimum
distance exceeds the current worst candidate distance; at a leaf every
owned point is offered; between two children the one with the smaller
bound-to-query minimum distance is visited first. -/
def stGo (k : ℕ) (q : Point) (t : Tree) (c : Cand) : Cand :=
  match t with
  | .leaf b l => if worstD k c < minDistO q b then c else foldOffers k q c l
  | .node b l r =>
    if worstD k c < minDistO q b then c
    else if minDistO q l.bnd ≤ minDistO q r.bnd
      then stGo k q r (stGo k q l c)
      else stGo k q l (stGo k q r c)

theorem stGo_leaf (k : ℕ) (q : Point) (b : Option HRect)
    (l : List (ℕ × Point)) (c : Cand) :
    stGo k q (.leaf b l) c
      = if worstD k c < minDistO q b then c else foldOffers k q c l := rfl

theorem stGo_node (k : ℕ) (q : Point) (b : Option HRect) (l r : Tree)
    (c : Cand) :
    stGo k q (.node b l r) c
      = if worstD k c < minDistO q b then c
        else if minDistO q l.bnd ≤ minDistO q r.bnd
          then stGo k q r (stGo k q l c)
          else stGo k q l (stGo k q r c) := rfl

/-- Pruning is sound: a batch whose bound is farther than the worst
candidate distance is entirely covered without being visited. -/
theorem prune_cov (k : ℕ) (q : Point) (c : Cand) (b : Option HRect)
    (P : List (ℕ × Point)) (hin : ∀ ip ∈ P, InRegO b ip.2)
    (hpr : worstD k c < minDistO q b) :
    ∀ ip ∈ P, Cov k q c ip := by
  intro ip hip
  apply cov_of_worst_lt
  have h1 : minDistO q b ≤ ((dist2 q ip.2 : ℚ) : WithTop ℚ) :=
    minDistO_sound q ip.2 b (hin ip hip)
  exact le_of_lt (lt_of_lt_of_le hpr h1)

/-- The single-tree search satisfies the search-step contract for the
batch of all points owned by the tree. -/
theorem stGo_ok (k : ℕ) (hk : 0 < k) (q : Point) (R0 : List (ℕ × Point))
    (t : Tree) (hwf : WFT t) (hsub : ∀ ip ∈ t.pts, ip ∈ R0)
    (hnodupT : (t.pts.map Prod.fst).Nodup) :
    SearchOK k q R0 t.pts (stGo k q t) := by
  induction t with
  | leaf b l =>
    intro c hinv hdisj
    by_cases hpr : worstD k c < minDistO q b
    · have heq : stGo k q (.leaf b l) c = c := by
        unfold stGo; rw [if_pos hpr]
      rw [heq]
      exact ⟨hinv, fun i hi => Or.inl hi, fun x hx => hx,
        prune_cov k q c b l (WFT_bnd_mem hwf) hpr⟩
    · have heq : stGo k q (.leaf b l) c = foldOffers k q c l := by
        unfold stGo; rw [if_neg hpr]
      rw [heq]
      exact foldOffers_ok k hk q R0 l hsub hnodupT c hinv hdisj
  | node b l r ihl ihr =>
    cases hwf with
    | node b l r hin hwl hwr =>
    have hsubl : ∀ ip ∈ l.pts, ip ∈ R0 := fun ip hip =>
      hsub ip (by simp [Tree.pts, List.mem_append]; exact Or.inl hip)
    have hsubr : ∀ ip ∈ r.pts, ip ∈ R0 := fun ip hip =>
      hsub ip (by simp [Tree.pts, List.mem_append]; exact Or.inr hip)
    have hnd : (l.pts.map Prod.fst).Nodup ∧ (r.pts.map Prod.fst).Nodup ∧
        ∀ i ∈ l.pts.map Prod.fst, i ∉ r.pts.map Prod.fst := by
      have : ((l.pts ++ r.pts).map Prod.fst).Nodup := hnodupT
      rw [List.map_append, List.nodup_append] at this
      exact ⟨this.1, this.2.1, fun i hi hcon => this.2.2 hi hcon⟩
    have hokl := ihl hwl hsubl hnd.1
    have hokr := ihr hwr hsubr hnd.2.1
    intro c hinv hdisj
    by_cases hpr : worstD k c < minDistO q b
    · rw [stGo_node, if_pos hpr]
      exact ⟨hinv, fun i hi => Or.inl hi, fun x hx => hx,
        prune_cov k q c b _ hin hpr⟩
    · by_cases hord : minDistO q l.bnd ≤ minDistO q r.bnd
      · rw [stGo_node, if_neg hpr, if_pos hord]
        exact searchOK_seq k q R0 l.pts r.pts _ _ hokl hokr hnd.2.2 c hinv hdisj
      · rw [stGo_node, if_neg hpr, if_neg hord]
        have hseq := searchOK_seq k q R0 r.pts l.pts _ _ hokr hokl
          (fun i hi hcon => hnd.2.2 i hcon hi)
        have hcongr := searchOK_congr k q R0 (r.pts ++ l.pts)
          (l.pts ++ r.pts) _ hseq
          (fun ip => by simp [List.mem_append]; exact Or.comm)
        exact hcongr c hinv hdisj

/-! ## Traversal engine, part 2 (spec section 4.3): dual-tree search

Modelled from the spec: the dual-tree traversal over (query node,
reference node) pairs.  The state maps each query's original column index
to its candidate list. -/

/-- Dual-tree search state: one candidate list per query column index. -/
abbrev DState := ℕ → Cand

/-- Update one query's slot. -/
def updS (s : DState) (j : ℕ) (c : Cand) : DState :=
  fun j2 => if j2 = j then c else s j2

theorem updS_same (s : DState) (j : ℕ) (c : Cand) : updS s j c j = c := by
  simp [updS]

theorem updS_other (s : DState) (j : ℕ) (c : Cand) (j2 : ℕ) (h : j2 ≠ j) :
    updS s j c j2 = s j2 := by
  simp [updS, h]

/-- Apply a per-query candidate transformation to every query owned by a
query node (the base cases of the dual-tree traversal). -/
def perQuery (F : Point → Cand → Cand) (qs : List (ℕ × Point))
    (s : DState) : DState :=
  qs.foldl (fun s2 jq => updS s2 jq.1 (F jq.2 (s2 jq.1))) s

/-- Contract of one dual-tree step over query batch `Q` and reference
batch `P`: slots outside `Q` are untouched; each query's slot keeps the
candidate invariant, only gains indices from `P`, keeps previously covered
pairs covered, and ends covering all of `P`. -/
def DualOK (k : ℕ) (R0 Q P : List (ℕ × Point)) (f : DState → DState) : Prop :=
  ∀ s : DState, (∀ jq ∈ Q, CInv k jq.2 R0 (s jq.1)) →
    (∀ jq ∈ Q, ∀ i ∈ (s jq.1).map Prod.fst, i ∉ P.map Prod.fst) →
    (∀ j, j ∉ Q.map Prod.fst → f s j = s j) ∧
    (∀ jq ∈ Q, CInv k jq.2 R0 (f s jq.1) ∧
      (∀ i ∈ (f s jq.1).map Prod.fst,
        i ∈ (s jq.1).map Prod.fst ∨ i ∈ P.map Prod.fst) ∧
      (∀ x, Cov k jq.2 (s jq.1) x → Cov k jq.2 (f s jq.1) x) ∧
      (∀ ip ∈ P, Cov k jq.2 (f s jq.1) ip))

/-- Per-query application of search steps satisfies the dual contract. -/
theorem perQuery_ok (k : ℕ) (R0 P : List (ℕ × Point))
    (F : Point → Cand → Cand) (hF : ∀ qp, SearchOK k qp R0 P (F qp))
    (qs : List (ℕ × Point)) (hqn : (qs.map Prod.fst).Nodup) :
    DualOK k R0 qs P (perQuery F qs) := by
  induction qs with
  | nil =>
    intro s hinv hdisj
    exact ⟨fun j hj => rfl, by simp⟩
  | cons jq qs2 ih =>
    simp only [List.map_cons, List.nodup_cons] at hqn
    intro s hinv hdisj
    have hstep : perQuery F (jq :: qs2) s
        = perQuery F qs2 (updS s jq.1 (F jq.2 (s jq.1))) := rfl
    set s1 := updS s jq.1 (F jq.2 (s jq.1)) with hs1
    have hslot : ∀ jq2 ∈ qs2, s1 jq2.1 = s jq2.1 := by
      intro jq2 hm
      apply updS_other
      intro hcon
      exact hqn.1 (hcon ▸ List.mem_map_of_mem Prod.fst hm)
    have hFres := hF jq.2 (s jq.1) (hinv jq (by simp))
      (hdisj jq (by simp))
    have hrec := ih hqn.2 s1
      (fun jq2 hm => (hslot jq2 hm) ▸ hinv jq2 (List.mem_cons_of_mem jq hm))
      (fun jq2 hm => (hslot jq2 hm) ▸ hdisj jq2 (List.mem_cons_of_mem jq hm))
    constructor
    · intro j hj
      simp only [List.map_cons, List.mem_cons] at hj
      push_neg at hj
      rw [hstep, hrec.1 j (fun hcon => hj.2 hcon), hs1]
      exact updS_other s jq.1 _ j hj.1
    · intro jq2 hm2
      rcases List.mem_cons.mp hm2 with rfl | hm3
      · have hjq : perQuery F (jq2 :: qs2) s jq2.1 = F jq2.2 (s jq2.1) := by
          rw [hstep, hrec.1 jq2.1 hqn.1, hs1]
          exact updS_same s jq2.1 _
        rw [hjq]
        exact hFres
      · have hslot2 := hslot jq2 hm3
        have h4 := hrec.2 jq2 hm3
        rw [hstep]
        rw [hslot2] at h4
        exact h4

/-- Sequencing two dual steps over the same queries and disjoint reference
batches. -/
theorem dualOK_refSeq (k : ℕ) (R0 Q P1 P2 : List (ℕ × Point))
    (f g : DState → DState) (hf : DualOK k R0 Q P1 f)
    (hg : DualOK k R0 Q P2 g)
    (hdisjP : ∀ i ∈ P1.map Prod.fst, i ∉ P2.map Prod.fst) :
    DualOK k R0 Q (P1 ++ P2) (fun s => g (f s)) := by
  intro s hinv hdisj
  have hdisj1 : ∀ jq ∈ Q, ∀ i ∈ (s jq.1).map Prod.fst,
      i ∉ P1.map Prod.fst := by
    intro jq hm i hi hcon
    exact hdisj jq hm i hi (by rw [List.map_append]; exact List.mem_append_left _ hcon)
  have h1 := hf s hinv hdisj1
  have hdisj2 : ∀ jq ∈ Q, ∀ i ∈ (f s jq.1).map Prod.fst,
      i ∉ P2.map Prod.fst := by
    intro jq hm i hi
    rcases (h1.2 jq hm).2.1 i hi with h | h
    · intro hcon
      exact hdisj jq hm i h (by rw [List.map_append]; exact List.mem_append_right _ hcon)
    · exact hdisjP i h
  have h2 := hg (f s) (fun jq hm => (h1.2 jq hm).1) hdisj2
  constructor
  · intro j hj
    exact (h2.1 j hj).trans (h1.1 j hj)
  · intro jq hm
    have c1 := h1.2 jq hm
    have c2 := h2.2 jq hm
    refine ⟨c2.1, ?_, ?_, ?_⟩
    · intro i hi
      rw [List.map_append]
      rcases c2.2.1 i hi with h | h
      · rcases c1.2.1 i h with h3 | h3
        · exact Or.inl h3
        · exact Or.inr (List.mem_append_left _ h3)
      · exact Or.inr (List.mem_append_right _ h)
    · intro x hx
      exact c2.2.2.1 x (c1.2.2.1 x hx)
    · intro ip hip
      rcases List.mem_append.mp hip with h | h
      · exact c2.2.2.1 _ (c1.2.2.2 ip h)
      · exact c2.2.2.2 ip h

/-- Sequencing two dual steps over disjoint query batches and the same
reference batch. -/
theorem dualOK_querySeq (k : ℕ) (R0 Q1 Q2 P : List (ℕ × Point))
    (f g : DState → DState) (hf : DualOK k R0 Q1 P f)
    (hg : DualOK k R0 Q2 P g)
    (hdisjQ : ∀ j ∈ Q1.map Prod.fst, j ∉ Q2.map Prod.fst) :
    DualOK k R0 (Q1 ++ Q2) P (fun s => g (f s)) := by
  intro s hinv hdisj
  have h1 := hf s (fun jq hm => hinv jq (List.mem_append_left _ hm))
    (fun jq hm => hdisj jq (List.mem_append_left _ hm))
  have huntouched2 : ∀ jq ∈ Q2, f s jq.1 = s jq.1 := by
    intro jq hm
    apply h1.1
    intro hcon
    exact hdisjQ jq.1 hcon (List.mem_map_of_mem Prod.fst hm)
  have h2 := hg (f s)
    (fun jq hm => (huntouched2 jq hm) ▸ hinv jq (List.mem_append_right _ hm))
    (fun jq hm => (huntouched2 jq hm) ▸ hdisj jq (List.mem_append_right _ hm))
  constructor
  · intro j hj
    rw [List.map_append] at hj
    have hj1 : j ∉ Q1.map Prod.fst := fun hcon => hj (List.mem_append_left _ hcon)
    have hj2 : j ∉ Q2.map Prod.fst := fun hcon => hj (List.mem_append_right _ hcon)
    exact (h2.1 j hj2).trans (h1.1 j hj1)
  · intro jq hm
    rcases List.mem_append.mp hm with hm1 | hm2
    · have c1 := h1.2 jq hm1
      have huntouched : g (f s) jq.1 = f s jq.1 := by
        apply h2.1
        intro hcon
        rcases List.mem_map.mp hcon with ⟨x, hx, hfst⟩
        exact hdisjQ jq.1 (List.mem_map_of_mem Prod.fst hm1)
          (hfst ▸ List.mem_map_of_mem Prod.fst hx)
      rw [← huntouched] at c1
      exact c1
    · have c2 := h2.2 jq hm2
      rw [huntouched2 jq hm2] at c2
      exact c2

/-- The dual contract only depends on the reference batch up to
membership. -/
theorem dualOK_congrP (k : ℕ) (R0 Q P1 P2 : List (ℕ × Point))
    (f : DState → DState) (hf : DualOK k R0 Q P1 f)
    (hmem : ∀ ip : ℕ × Point, ip ∈ P1 ↔ ip ∈ P2) :
    DualOK k R0 Q P2 f := by
  have hmapm : ∀ i : ℕ, i ∈ P1.map Prod.fst ↔ i ∈ P2.map Prod.fst := by
    intro i
    constructor <;> intro h <;> rcases List.mem_map.mp h with ⟨x, hx, rfl⟩
    · exact List.mem_map_of_mem Prod.fst ((hmem x).mp hx)
    · exact List.mem_map_of_mem Prod.fst ((hmem x).mpr hx)
  intro s hinv hdisj
  have h1 := hf s hinv
    (fun jq hm i hi hcon => hdisj jq hm i hi ((hmapm i).mp hcon))
  refine ⟨h1.1, ?_⟩
  intro jq hm
  have c1 := h1.2 jq hm
  refine ⟨c1.1, ?_, c1.2.2.1, ?_⟩
  · intro i hi
    rcases c1.2.1 i hi with h | h
    · exact Or.inl h
    · exact Or.inr ((hmapm i).mp h)
  · intro ip hip
    exact c1.2.2.2 ip ((hmem ip).mpr hip)

/-- Modelled from the spec: dual-tree depth-first search.  A (query node,
reference node) pair is pruned when the bound-to-bound minimum distance
exceeds every owned query's current worst distance (the node-level worst
bound); when the reference side is a leaf its points are offered to every
query owned by the query node; when only the query side is a leaf each of
its queries runs the single-tree base case against the reference subtree;
otherwise the four child combinations are visited, each query child taking
its closer reference child first.  Recursion is driven by fuel, which the
wrapper sets to a provably sufficient node count. -/
def dtGo (k : ℕ) : ℕ → Tree → Tree → DState → DState
  | 0, _, _, s => s
  | fuel + 1, qt, rt, s =>
    if qt.pts.all fun jq => decide (worstD k (s jq.1) < minDistBBO qt.bnd rt.bnd)
    then s
    else
      match rt with
      | .leaf _ R => perQuery (fun qp c => foldOffers k qp c R) qt.pts s
      | .node rb x y =>
        match qt with
        | .leaf _ qs => perQuery (fun qp c => stGo k qp (.node rb x y) c) qs s
        | .node _ a b2 =>
          let s1 :=
            if minDistBBO a.bnd x.bnd ≤ minDistBBO a.bnd y.bnd
              then dtGo k fuel a y (dtGo k fuel a x s)
              else dtGo k fuel a x (dtGo k fuel a y s)
          if minDistBBO b2.bnd x.bnd ≤ minDistBBO b2.bnd y.bnd
            then dtGo k fuel b2 y (dtGo k fuel b2 x s1)
            else dtGo k fuel b2 x (dtGo k fuel b2 y s1)

theorem dtGo_succ (k fuel : ℕ) (qt rt : Tree) (s : DState) :
    dtGo k (fuel + 1) qt rt s =
    if qt.pts.all fun jq => decide (worstD k (s jq.1) < minDistBBO qt.bnd rt.bnd)
    then s
    else
      match rt with
      | .leaf _ R => perQuery (fun qp c => foldOffers k qp c R) qt.pts s
      | .node rb x y =>
        match qt with
        | .leaf _ qs => perQuery (fun qp c => stGo k qp (.node rb x y) c) qs s
        | .node _ a b2 =>
          let s1 :=
            if minDistBBO a.bnd x.bnd ≤ minDistBBO a.bnd y.bnd
              then dtGo k fuel a y (dtGo k fuel a x s)
              else dtGo k fuel a x (dtGo k fuel a y s)
          if minDistBBO b2.bnd x.bnd ≤ minDistBBO b2.bnd y.bnd
            then dtGo k fuel b2 y (dtGo k fuel b2 x s1)
            else dtGo k fuel b2 x (dtGo k fuel b2 y s1) := rfl

/-- The dual-tree search satisfies the dual contract whenever the fuel
covers the combined node counts. -/
theorem dtGo_ok (k : ℕ) (hk : 0 < k) (R0 : List (ℕ × Point)) (fuel : ℕ) :
    ∀ (qt rt : Tree), WFT qt → WFT rt →
    (∀ ip ∈ rt.pts, ip ∈ R0) → (rt.pts.map Prod.fst).Nodup →
    (qt.pts.map Prod.fst).Nodup → qt.sz + rt.sz ≤ fuel →
    DualOK k R0 qt.pts rt.pts (dtGo k fuel qt rt) := by
  induction fuel with
  | zero =>
    intro qt rt _ _ _ _ _ hsz
    have h1 := qt.sz_pos
    have h2 := rt.sz_pos
    omega
  | succ fuel ih =>
    intro qt rt hwq hwr hsub hndR hndQ hsz
    intro s hinv hdisj
    by_cases hpr :
        (qt.pts.all fun jq =>
          decide (worstD k (s jq.1) < minDistBBO qt.bnd rt.bnd)) = true
    · rw [dtGo_succ, if_pos hpr]
      have hall := List.all_eq_true.mp hpr
      refine ⟨fun j hj => rfl, ?_⟩
      intro jq hm
      refine ⟨hinv jq hm, fun i hi => Or.inl hi, fun x hx => hx, ?_⟩
      intro ip hip
      apply cov_of_worst_lt
      have hlt : worstD k (s jq.1) < minDistBBO qt.bnd rt.bnd :=
        of_decide_eq_true (hall jq hm)
      have hle : minDistBBO qt.bnd rt.bnd ≤ ((dist2 jq.2 ip.2 : ℚ) : WithTop ℚ) :=
        minDistBBO_sound qt.bnd rt.bnd jq.2 ip.2
          (WFT_bnd_mem hwq jq hm) (WFT_bnd_mem hwr ip hip)
      exact le_of_lt (lt_of_lt_of_le hlt hle)
    · rw [dtGo_succ, if_neg hpr]
      cases rt with
      | leaf rb R =>
        have hF : ∀ qp : Point, SearchOK k qp R0 R
            (fun c => foldOffers k qp c R) :=
          fun qp => foldOffers_ok k hk qp R0 R hsub hndR
        exact perQuery_ok k R0 R _ hF qt.pts hndQ s hinv hdisj
      | node rb x y =>
        cases hwr with
        | node rb x y hinr hwx hwy =>
        have hndxy : (x.pts.map Prod.fst).Nodup ∧ (y.pts.map Prod.fst).Nodup ∧
            ∀ i ∈ x.pts.map Prod.fst, i ∉ y.pts.map Prod.fst := by
          have h0 : ((x.pts ++ y.pts).map Prod.fst).Nodup := hndR
          rw [List.map_append, List.nodup_append] at h0
          exact ⟨h0.1, h0.2.1, fun i hi hcon => h0.2.2 hi hcon⟩
        have hsubx : ∀ ip ∈ x.pts, ip ∈ R0 := fun ip hip =>
          hsub ip (List.mem_append_left _ hip)
        have hsuby : ∀ ip ∈ y.pts, ip ∈ R0 := fun ip hip =>
          hsub ip (List.mem_append_right _ hip)
        cases qt with
        | leaf qb qs =>
          have hF : ∀ qp : Point, SearchOK k qp R0
              (Tree.node rb x y).pts (fun c => stGo k qp (.node rb x y) c) :=
            fun qp => stGo_ok k hk qp R0 (.node rb x y)
              (WFT.node rb x y hinr hwx hwy) hsub hndR
          exact perQuery_ok k R0 (Tree.node rb x y).pts _ hF qs hndQ s hinv hdisj
        | node qb a b2 =>
          cases hwq with
          | node qb a b2 hinq hwa hwb =>
          have hndab : (a.pts.map Prod.fst).Nodup ∧ (b2.pts.map Prod.fst).Nodup ∧
              ∀ j ∈ a.pts.map Prod.fst, j ∉ b2.pts.map Prod.fst := by
            have h0 : ((a.pts ++ b2.pts).map Prod.fst).Nodup := hndQ
            rw [List.map_append, List.nodup_append] at h0
            exact ⟨h0.1, h0.2.1, fun i hi hcon => h0.2.2 hi hcon⟩
          have hsza := a.sz_pos
          have hszb := b2.sz_pos
          have hszx := x.sz_pos
          have hszy := y.sz_pos
          have hsz2 : Tree.sz (.node qb a b2) + Tree.sz (.node rb x y)
              ≤ fuel + 1 := hsz
          simp only [Tree.sz] at hsz2
          have hax := ih a x hwa hwx hsubx hndxy.1 hndab.1 (by omega)
          have hay := ih a y hwa hwy hsuby hndxy.2.1 hndab.1 (by omega)
          have hbx := ih b2 x hwb hwx hsubx hndxy.1 hndab.2.1 (by omega)
          have hby := ih b2 y hwb hwy hsuby hndxy.2.1 hndab.2.1 (by omega)
          have hyx : ∀ i ∈ y.pts.map Prod.fst, i ∉ x.pts.map Prod.fst :=
            fun i hi hcon => hndxy.2.2 i hcon hi
          have hmemflip : ∀ ip : ℕ × Point,
              ip ∈ y.pts ++ x.pts ↔ ip ∈ x.pts ++ y.pts := by
            intro ip
            simp only [List.mem_append]
            exact Or.comm
          have hA : DualOK k R0 a.pts (x.pts ++ y.pts)
              (if minDistBBO a.bnd x.bnd ≤ minDistBBO a.bnd y.bnd
                then fun s2 => dtGo k fuel a y (dtGo k fuel a x s2)
                else fun s2 => dtGo k fuel a x (dtGo k fuel a y s2)) := by
            by_cases hc : minDistBBO a.bnd x.bnd ≤ minDistBBO a.bnd y.bnd
            · rw [if_pos hc]
              exact dualOK_refSeq k R0 a.pts x.pts y.pts _ _ hax hay hndxy.2.2
            · rw [if_neg hc]
              exact dualOK_congrP k R0 a.pts (y.pts ++ x.pts) (x.pts ++ y.pts) _
                (dualOK_refSeq k R0 a.pts y.pts x.pts _ _ hay hax hyx) hmemflip
          have hB : DualOK k R0 b2.pts (x.pts ++ y.pts)
              (if minDistBBO b2.bnd x.bnd ≤ minDistBBO b2.bnd y.bnd
                then fun s2 => dtGo k fuel b2 y (dtGo k fuel b2 x s2)
                else fun s2 => dtGo k fuel b2 x (dtGo k fuel b2 y s2)) := by
            by_cases hc : minDistBBO b2.bnd x.bnd ≤ minDistBBO b2.bnd y.bnd
            · rw [if_pos hc]
              exact dualOK_refSeq k R0 b2.pts x.pts y.pts _ _ hbx hby hndxy.2.2
            · rw [if_neg hc]
              exact dualOK_congrP k R0 b2.pts (y.pts ++ x.pts) (x.pts ++ y.pts) _
                (dualOK_refSeq k R0 b2.pts y.pts x.pts _ _ hby hbx hyx) hmemflip
          have hQ := dualOK_querySeq k R0 a.pts b2.pts (x.pts ++ y.pts) _ _
            hA hB hndab.2.2
          have hres := hQ s hinv hdisj
          by_cases hc1 : minDistBBO a.bnd x.bnd ≤ minDistBBO a.bnd y.bnd <;>
            by_cases hc2 : minDistBBO b2.bnd x.bnd ≤ minDistBBO b2.bnd y.bnd <;>
            simp only [if_pos, if_neg, hc1, hc2, if_true, if_false] at hres ⊢ <;>
            exact hres

/-- The dual-tree search entry point: all candidate lists start empty and
the fuel covers both trees. -/
def dualSearch (k : ℕ) (qt rt : Tree) : DState :=
  dtGo k (qt.sz + rt.sz) qt rt fun _ => []

/-! ## Correct k-nearest-neighbor results -/

/-- A candidate list is a correct k-nearest answer for query `q` over the
reference pairs `R`: sorted ascending, distinct true (index, distance)
entries, of full length `min k |R|`, and no reference point outside the
list is closer than any listed entry. -/
structure KnnCorrect (k : ℕ) (q : Point) (R : List (ℕ × Point)) (c : Cand) :
    Prop where
  sorted : CandSorted c
  nodup : (c.map Prod.fst).Nodup
  valid : ∀ e ∈ c, ∃ p, (e.1, p) ∈ R ∧ e.2 = dist2 q p
  length : c.length = min k R.length
  dominated : ∀ ip ∈ R, (ip.1, dist2 q ip.2) ∈ c ∨ ∀ e ∈ c, e.2 ≤ dist2 q ip.2

/-- A candidate list that satisfies the invariant and covers every
reference pair is a correct k-nearest answer. -/
theorem knn_of_cov (k : ℕ) (q : Point) (R : List (ℕ × Point))
    (hndR : (R.map Prod.fst).Nodup) (c : Cand) (hinv : CInv k q R c)
    (hcov : ∀ ip ∈ R, Cov k q c ip) : KnnCorrect k q R c := by
  have hsubfst : c.map Prod.fst ⊆ R.map Prod.fst := by
    intro i hi
    rcases List.mem_map.mp hi with ⟨e, he, rfl⟩
    rcases hinv.valid e he with ⟨p, hp, _⟩
    exact List.mem_map_of_mem Prod.fst hp
  have hlenR : c.length ≤ R.length := by
    have := (List.subperm_of_subset hinv.nodup hsubfst).length_le
    simpa using this
  have hdom : ∀ ip ∈ R, (ip.1, dist2 q ip.2) ∈ c ∨ ∀ e ∈ c, e.2 ≤ dist2 q ip.2 := by
    intro ip hip
    rcases hcov ip hip with h | h
    · exact Or.inl h
    · right
      have hfull : ¬ c.length < k := by
        have := full_of_worstD_le k c _ h
        omega
      rw [worstD_eq_lastD k c hfull] at h
      intro e he
      have h1 : (e.2 : WithTop ℚ) ≤ lastD c := mem_le_lastD c hinv.sorted e he
      exact_mod_cast le_trans h1 h
  refine ⟨hinv.sorted, hinv.nodup, hinv.valid, ?_, hdom⟩
  by_cases hall : ∀ ip ∈ R, (ip.1, dist2 q ip.2) ∈ c
  · have hsub2 : R.map Prod.fst ⊆ c.map Prod.fst := by
      intro i hi
      rcases List.mem_map.mp hi with ⟨ip, hip, rfl⟩
      exact List.mem_map_of_mem Prod.fst (hall ip hip)
    have hlen2 : R.length ≤ c.length := by
      have := (List.subperm_of_subset hndR hsub2).length_le
      simpa using this
    have := hinv.len
    omega
  · push_neg at hall
    rcases hall with ⟨ip, hip, hni⟩
    rcases hcov ip hip with h | h
    · exact absurd h hni
    · have hfull := full_of_worstD_le k c _ h
      have := hinv.len
      omega

/-- Two selections of equal size from the same pool, each dominating
everything it excludes, carry the same multiset of distances. -/
theorem cross_snd_eq (S1 S2 : Multiset Entry) (hnd1 : S1.Nodup)
    (hnd2 : S2.Nodup) (hcard : Multiset.card S1 = Multiset.card S2)
    (hd1 : ∀ t ∈ S1, t ∉ S2 → ∀ u ∈ S2, u.2 ≤ t.2)
    (hd2 : ∀ u ∈ S2, u ∉ S1 → ∀ t ∈ S1, t.2 ≤ u.2) :
    S1.map Prod.snd = S2.map Prod.snd := by
  classical
  have hid1 : S1 - S2 + S1 ∩ S2 = S1 := Multiset.sub_add_inter S1 S2
  have hid2 : S2 - S1 + S2 ∩ S1 = S2 := Multiset.sub_add_inter S2 S1
  have hcT : Multiset.card (S1 - S2) = Multiset.card (S2 - S1) := by
    have h1 : Multiset.card (S1 - S2) + Multiset.card (S1 ∩ S2)
        = Multiset.card S1 := by rw [← Multiset.card_add, hid1]
    have h2 : Multiset.card (S2 - S1) + Multiset.card (S2 ∩ S1)
        = Multiset.card S2 := by rw [← Multiset.card_add, hid2]
    rw [Multiset.inter_comm] at h2
    omega
  have hmemT : ∀ t ∈ S1 - S2, t ∈ S1 ∧ t ∉ S2 :=
    fun t ht => (Multiset.mem_sub_of_nodup hnd1).mp ht
  have hmemU : ∀ u ∈ S2 - S1, u ∈ S2 := fun u hu => by
    have : S2 - S1 ≤ S2 := Multiset.sub_le_self S2 S1
    exact Multiset.mem_of_le this hu
  have hmemU2 : ∀ u ∈ S2 - S1, u ∉ S1 := by
    intro u hu hcon
    have hc1 : Multiset.count u S1 = 1 :=
      Multiset.count_eq_one_of_mem hnd1 hcon
    have hc2 : 0 < Multiset.count u (S2 - S1) := Multiset.count_pos.mpr hu
    rw [Multiset.count_sub] at hc2
    have hc4 : Multiset.count u S2 ≤ 1 :=
      Multiset.nodup_iff_count_le_one.mp hnd2 u
    omega
  by_cases hT : S1 - S2 = 0
  · have hle1 : S1 ≤ S2 := tsub_eq_zero_iff_le.mp hT
    have heq : S1 = S2 := Multiset.eq_of_le_of_card_le hle1 (le_of_eq hcard.symm)
    rw [heq]
  · rcases Multiset.exists_mem_of_ne_zero hT with ⟨t0, ht0⟩
    have hU : S2 - S1 ≠ 0 := by
      intro hcon
      have hz : Multiset.card (S2 - S1) = 0 := by rw [hcon]; rfl
      rw [← hcT] at hz
      exact hT (Multiset.card_eq_zero.mp hz)
    rcases Multiset.exists_mem_of_ne_zero hU with ⟨u0, hu0⟩
    have hval : ∀ t ∈ S1 - S2, ∀ u ∈ S2 - S1, t.2 = u.2 := by
      intro t ht u hu
      have h1 := hd1 t (hmemT t ht).1 (hmemT t ht).2 u (hmemU u hu)
      have h2 := hd2 u (hmemU u hu) (hmemU2 u hu) t (hmemT t ht).1
      exact le_antisymm h2 h1
    set w : ℚ := t0.2 with hw
    have hTw : ∀ t ∈ S1 - S2, t.2 = w := by
      intro t ht
      rw [hval t ht u0 hu0, ← hval t0 ht0 u0 hu0]
    have hUw : ∀ u ∈ S2 - S1, u.2 = w := by
      intro u hu
      rw [← hval t0 ht0 u hu]
    have hmapT : (S1 - S2).map Prod.snd
        = Multiset.replicate (Multiset.card (S1 - S2)) w := by
      rw [Multiset.eq_replicate]
      refine ⟨Multiset.card_map _ _, ?_⟩
      intro b hb
      rcases Multiset.mem_map.mp hb with ⟨t, ht, rfl⟩
      exact hTw t ht
    have hmapU : (S2 - S1).map Prod.snd
        = Multiset.replicate (Multiset.card (S2 - S1)) w := by
      rw [Multiset.eq_replicate]
      refine ⟨Multiset.card_map _ _, ?_⟩
      intro b hb
      rcases Multiset.mem_map.mp hb with ⟨u, hu, rfl⟩
      exact hUw u hu
    calc S1.map Prod.snd
        = (S1 - S2 + S1 ∩ S2).map Prod.snd := by rw [hid1]
      _ = (S1 - S2).map Prod.snd + (S1 ∩ S2).map Prod.snd :=
          Multiset.map_add _ _ _
      _ = Multiset.replicate (Multiset.card (S2 - S1)) w
            + (S2 ∩ S1).map Prod.snd := by
          rw [hmapT, hcT, Multiset.inter_comm]
      _ = (S2 - S1).map Prod.snd + (S2 ∩ S1).map Prod.snd := by rw [hmapU]
      _ = (S2 - S1 + S2 ∩ S1).map Prod.snd := (Multiset.map_add _ _ _).symm
      _ = S2.map Prod.snd := by rw [hid2]

/-- Any two correct k-nearest answers list exactly the same distances in
the same order. -/
theorem knnCorrect_snd_eq (k : ℕ) (q : Point) (R : List (ℕ × Point))
    (c1 c2 : Cand) (h1 : KnnCorrect k q R c1) (h2 : KnnCorrect k q R c2) :
    c1.map Prod.snd = c2.map Prod.snd := by
  have hcross : ∀ (ca cb : Cand), KnnCorrect k q R ca → KnnCorrect k q R cb →
      ∀ t ∈ ca, t ∉ cb → ∀ u ∈ cb, u.2 ≤ t.2 := by
    intro ca cb hca hcb t ht hnt u hu
    rcases hca.valid t ht with ⟨p, hp, hte⟩
    have hne : (t.1, dist2 q p) = t := by rw [← hte]
    have hdom : (t.1, dist2 q p) ∈ cb ∨ ∀ x ∈ cb, x.2 ≤ dist2 q p :=
      hcb.dominated (t.1, p) hp
    rcases hdom with h | h
    · rw [hne] at h
      exact absurd h hnt
    · rw [hte]
      exact h u hu
  have hmult : ((c1.map Prod.snd : List ℚ) : Multiset ℚ)
      = ((c2.map Prod.snd : List ℚ) : Multiset ℚ) := by
    have hnd1 : (c1 : Multiset Entry).Nodup := by
      rw [Multiset.coe_nodup]
      exact h1.nodup.of_map Prod.fst
    have hcard : Multiset.card (c1 : Multiset Entry)
        = Multiset.card (c2 : Multiset Entry) := by
      simp only [Multiset.coe_card]
      rw [h1.length, h2.length]
    have hnd2m : (c2 : Multiset Entry).Nodup := by
      rw [Multiset.coe_nodup]
      exact h2.nodup.of_map Prod.fst
    have := cross_snd_eq (c1 : Multiset Entry) (c2 : Multiset Entry) hnd1
      hnd2m hcard
      (by intro t ht hnt u hu
          exact hcross c1 c2 h1 h2 t (by exact_mod_cast ht)
            (by simpa using hnt) u (by exact_mod_cast hu))
      (by intro u hu hnu t ht
          exact hcross c2 c1 h2 h1 u (by exact_mod_cast hu)
            (by simpa using hnu) t (by exact_mod_cast ht))
    simpa [Multiset.map_coe] using this
  have hperm : List.Perm (c1.map Prod.snd) (c2.map Prod.snd) :=
    Multiset.coe_eq_coe.mp hmult
  have hs1 : (c1.map Prod.snd).Sorted (· ≤ ·) := by
    rw [List.Sorted, List.pairwise_map]
    exact h1.sorted
  have hs2 : (c2.map Prod.snd).Sorted (· ≤ ·) := by
    rw [List.Sorted, List.pairwise_map]
    exact h2.sorted
  exact List.eq_of_perm_of_sorted hperm hs1 hs2

/-- Entries of one correct answer that are missing from another sit
exactly at the other's worst (cutoff) distance: only ties can permute. -/
theorem knnCorrect_tie (k : ℕ) (q : Point) (R : List (ℕ × Point))
    (c1 c2 : Cand) (h1 : KnnCorrect k q R c1) (h2 : KnnCorrect k q R c2) :
    ∀ e ∈ c1, e ∈ c2 ∨ lastD c2 = ((e.2 : ℚ) : WithTop ℚ) := by
  intro e he
  by_cases hmem : e ∈ c2
  · exact Or.inl hmem
  · right
    rcases h1.valid e he with ⟨p, hp, hte⟩
    have hne : (e.1, dist2 q p) = e := by rw [← hte]
    have hdom : (e.1, dist2 q p) ∈ c2 ∨ ∀ x ∈ c2, x.2 ≤ dist2 q p :=
      h2.dominated (e.1, p) hp
    rw [hne] at hdom
    rcases hdom with h | h
    · exact absurd h hmem
    · have hsnd := knnCorrect_snd_eq k q R c1 c2 h1 h2
      have hmem2 : e.2 ∈ c2.map Prod.snd := by
        rw [← hsnd]
        exact List.mem_map_of_mem Prod.snd he
      rcases List.mem_map.mp hmem2 with ⟨e2, he2, hsnd2⟩
      have hne2 : c2 ≠ [] := by
        intro hcon
        rw [hcon] at he2
        simp at he2
      apply le_antisymm
      · apply lastD_le_of_forall c2 hne2
        intro x hx
        rw [hte]
        exact_mod_cast h x hx
      · rw [← hsnd2]
        exact mem_le_lastD c2 h2.sorted e2 he2

/-! ## The three search strategies and their correctness -/

/-- Modelled from the spec: the naive brute-force fallback — a nested loop
offering every reference point to the query's candidate set. -/
def naiveSearch (k : ℕ) (q : Point) (R : List (ℕ × Point)) : Cand :=
  foldOffers k q [] R

/-- Single-tree search entry point: empty candidate set, then the pruned
depth-first descent. -/
def singleSearch (k : ℕ) (q : Point) (t : Tree) : Cand := stGo k q t []

theorem cinv_nil (k : ℕ) (q : Point) (R0 : List (ℕ × Point)) :
    CInv k q R0 [] :=
  ⟨List.Pairwise.nil, Nat.zero_le k, List.nodup_nil, by simp⟩

/-- Correctness is stable under permuting the reference pair list. -/
theorem knn_perm (k : ℕ) (q : Point) (R R2 : List (ℕ × Point)) (c : Cand)
    (h : KnnCorrect k q R c) (hp : List.Perm R R2) : KnnCorrect k q R2 c := by
  refine ⟨h.sorted, h.nodup, ?_, ?_, ?_⟩
  · intro e he
    rcases h.valid e he with ⟨p, hp2, hd⟩
    exact ⟨p, hp.mem_iff.mp hp2, hd⟩
  · rw [h.length, hp.length_eq]
  · intro ip hip
    exact h.dominated ip (hp.mem_iff.mpr hip)

/-- The naive search over a duplicate-free reference pair list is a
correct k-nearest answer. -/
theorem naiveSearch_knn (k : ℕ) (hk : 0 < k) (q : Point)
    (R : List (ℕ × Point)) (hnd : (R.map Prod.fst).Nodup) :
    KnnCorrect k q R (naiveSearch k q R) := by
  have hok := foldOffers_ok k hk q R R (fun ip hip => hip) hnd []
    (cinv_nil k q R) (by simp)
  exact knn_of_cov k q R hnd _ hok.1 hok.2.2.2

/-- The single-tree search over a well-formed tree holding exactly the
reference pairs is a correct k-nearest answer. -/
theorem singleSearch_knn (k : ℕ) (hk : 0 < k) (q : Point)
    (R : List (ℕ × Point)) (hnd : (R.map Prod.fst).Nodup) (t : Tree)
    (hwf : WFT t) (hperm : List.Perm t.pts R) :
    KnnCorrect k q R (singleSearch k q t) := by
  have hndT : (t.pts.map Prod.fst).Nodup := by
    rw [List.Perm.nodup_iff (hperm.map Prod.fst)]
    exact hnd
  have hok := stGo_ok k hk q R t hwf (fun ip hip => hperm.mem_iff.mp hip) hndT
    [] (cinv_nil k q R) (by simp)
  refine knn_of_cov k q R hnd _ hok.1 ?_
  intro ip hip
  exact hok.2.2.2 ip (hperm.mem_iff.mpr hip)

/-- The dual-tree search over well-formed query and reference trees gives
a correct k-nearest answer for every query owned by the query tree. -/
theorem dualSearch_knn (k : ℕ) (hk : 0 < k) (R : List (ℕ × Point))
    (hnd : (R.map Prod.fst).Nodup) (qt rt : Tree) (hwq : WFT qt)
    (hwr : WFT rt) (hperm : List.Perm rt.pts R)
    (hndQ : (qt.pts.map Prod.fst).Nodup) :
    ∀ jq ∈ qt.pts, KnnCorrect k jq.2 R (dualSearch k qt rt jq.1) := by
  have hndT : (rt.pts.map Prod.fst).Nodup := by
    rw [List.Perm.nodup_iff (hperm.map Prod.fst)]
    exact hnd
  have hok := dtGo_ok k hk R (qt.sz + rt.sz) qt rt hwq hwr
    (fun ip hip => hperm.mem_iff.mp hip) hndT hndQ (le_refl _)
    (fun _ => []) (fun jq hm => cinv_nil k jq.2 R) (by simp)
  intro jq hm
  have hc := hok.2 jq hm
  refine knn_of_cov k jq.2 R hnd _ hc.1 ?_
  intro ip hip
  exact hc.2.2.2 ip (hperm.mem_iff.mpr hip)

/-- Two k-nearest answers are the same set of (index, distance) pairs up
to permuting ties: the distance columns agree exactly, and any entry of
one that is missing from the other sits at the other's worst (cutoff)
distance. -/
def SameUpToTies (c1 c2 : Cand) : Prop :=
  c1.map Prod.snd = c2.map Prod.snd ∧
  (∀ e ∈ c1, e ∈ c2 ∨ lastD c2 = ((e.2 : ℚ) : WithTop ℚ)) ∧
  (∀ e ∈ c2, e ∈ c1 ∨ lastD c1 = ((e.2 : ℚ) : WithTop ℚ))

theorem knn_sameUpToTies (k : ℕ) (q : Point) (R : List (ℕ × Point))
    (c1 c2 : Cand) (h1 : KnnCorrect k q R c1) (h2 : KnnCorrect k q R c2) :
    SameUpToTies c1 c2 :=
  ⟨knnCorrect_snd_eq k q R c1 c2 h1 h2,
   knnCorrect_tie k q R c1 c2 h1 h2,
   knnCorrect_tie k q R c2 c1 h2 h1⟩

/-! ## Index remapping (allknn_main.cpp lines 175-206)

The driver allocates fresh output matrices and copies column `i` of the
search result into output column `perm[i]`, mapping every neighbor index
through the reference permutation.  Matrices are modelled as lists of
columns (arma is column-major); `scatter` is the write loop. -/

/-- Write the value columns at the given output positions, in order
(`out.set` mirrors `distancesOut.col(pos[i]) = vals[i]`). -/
def scatter : List ℕ → List (List α) → List (List α) → List (List α)
  | [], _, out => out
  | _ :: _, [], out => out
  | p :: ps, v :: vs, out => scatter ps vs (out.set p v)

/-- Embedded from `allknn_main.cpp` lines 179-206: the remapping loop.
`oldCols` reorders the columns (`oldFromNewQueries` when a query file was
given, `oldFromNewRefs` otherwise) and `oldIdx` (`oldFromNewRefs`) maps
every neighbor-index entry; both output matrices start as fresh
`numQueries`-column matrices. -/
def remapResults (oldCols oldIdx : List ℕ) (dist : List (List ℚ))
    (nb : List (List ℕ)) : List (List ℚ) × List (List ℕ) :=
  (scatter oldCols dist (List.replicate dist.length []),
   scatter oldCols (nb.map fun col => col.map fun v => oldIdx.getD v 0)
     (List.replicate nb.length []))

theorem scatter_length (ps : List ℕ) (vs out : List (List α)) :
    (scatter ps vs out).length = out.length := by
  induction ps generalizing vs out with
  | nil => rfl
  | cons p ps ih =>
    cases vs with
    | nil => rfl
    | cons v vs2 =>
      rw [scatter, ih, List.length_set]

theorem scatter_untouched (ps : List ℕ) (vs out : List (List α)) (j : ℕ)
    (hj : j ∉ ps) : (scatter ps vs out).getD j d = out.getD j d := by
  induction ps generalizing vs out with
  | nil => rfl
  | cons p ps ih =>
    cases vs with
    | nil => rfl
    | cons v vs2 =>
      rw [scatter]
      have hj2 : j ∉ ps := fun h => hj (List.mem_cons_of_mem p h)
      have hjp : p ≠ j := fun h => hj (h ▸ List.mem_cons_self p ps)
      rw [ih vs2 _ hj2, List.getD_eq_getElem?_getD, List.getD_eq_getElem?_getD,
        List.getElem?_set_ne hjp]

theorem scatter_getD (ps : List ℕ) (vs out : List (List α))
    (hnd : ps.Nodup) :
    ∀ i, i < ps.length → i < vs.length → ps.getD i 0 < out.length →
      (scatter ps vs out).getD (ps.getD i 0) d = vs.getD i d := by
  induction ps generalizing vs out with
  | nil => intro i h _ _; simp at h
  | cons p ps ih =>
    rcases List.nodup_cons.mp hnd with ⟨hp, hnd2⟩
    intro i hi hiv hplen
    cases vs with
    | nil => simp at hiv
    | cons v vs2 =>
      cases i with
      | zero =>
        rw [scatter]
        have h1 : (List.getD (p :: ps) 0 0) = p := rfl
        rw [h1] at hplen ⊢
        rw [scatter_untouched ps vs2 _ p hp, List.getD_eq_getElem?_getD,
          List.getElem?_set_self hplen]
        rfl
      | succ i2 =>
        rw [scatter]
        have h1 : List.getD (p :: ps) (i2 + 1) 0 = List.getD ps i2 0 := rfl
        rw [h1] at hplen ⊢
        have := ih vs2 (out.set p v) hnd2 i2 (by simpa using hi)
          (by simpa using hiv) (by rwa [List.length_set])
        exact this

theorem scatter_col_src (ps : List ℕ) (vs out : List (List α)) :
    ∀ col ∈ scatter ps vs out, col ∈ vs ∨ col ∈ out := by
  induction ps generalizing vs out with
  | nil => intro col h; exact Or.inr h
  | cons p ps ih =>
    cases vs with
    | nil => intro col h; exact Or.inr h
    | cons v vs2 =>
      intro col h
      rw [scatter] at h
      rcases ih vs2 (out.set p v) col h with h2 | h2
      · exact Or.inl (List.mem_cons_of_mem v h2)
      · rcases List.mem_or_eq_of_mem_set h2 with h3 | h3
        · exact Or.inr h3
        · exact Or.inl (h3 ▸ List.mem_cons_self v vs2)

/-- A permutation of `range n` hits every column index below `n`. -/
theorem perm_range_surj (ps : List ℕ) (n : ℕ)
    (hp : List.Perm ps (List.range n)) :
    ∀ c < n, ∃ i, i < ps.length ∧ ps.getD i 0 = c := by
  intro c hc
  have hmem : c ∈ ps := hp.mem_iff.mpr (List.mem_range.mpr hc)
  rcases List.getElem_of_mem hmem with ⟨i, hi, hget⟩
  exact ⟨i, hi, by rw [List.getD_eq_getElem ps 0 hi]; exact hget⟩

/-! ## The driver (allknn_main.cpp)

Embedded from `main` in `allknn_main.cpp`.  File loading and saving are
excluded collaborators (spec section 1): the reference and query matrices
are taken as inputs and a successful load is assumed; `Log::Fatal` aborts
the run, so the trace ends at the fatal event.  The observable actions are
recorded as an event trace in program order. -/

inductive Event where
  | fatalK
  | fatalLeaf
  | warnNaiveSingle
  | buildRefTree (leafSize : ℕ)
  | loadQuery
  | buildQueryTree (leafSize : ℕ)
  | search
  | remapQuery
  | remapRef
deriving DecidableEq

/-- The command-line inputs consumed by `main` (files excluded: the query
matrix stands for the loaded `query_file` when present). -/
structure Config where
  k : ℤ
  lsInt : ℤ
  naive : Bool
  singleMode : Bool
  query : Option (List Point)
deriving DecidableEq

structure RunOut where
  trace : List Event
  refTree : Option Tree
  queryTree : Option Tree
deriving DecidableEq

/-- `size_t k = CLI::GetParam<int>("k")`: the int is converted to the
64-bit unsigned `size_t`, wrapping negatives around `2^64`. -/
def kAsSizeT (k : ℤ) : ℕ := (k % (2 : ℤ) ^ 64).toNat

/-- Embedded from `main` (allknn_main.cpp lines 56-216): validation of
`k` and `leaf_size`, the naive/single-mode warning, the naive leaf-size
overrides, and the construction of the reference and (optional) query
trees, in program order. -/
def run (cfg : Config) (refs : List Point) : RunOut :=
  let n := refs.length
  let kSz := kAsSizeT cfg.k
  if kSz ≤ 0 ∨ kSz ≥ n then
    { trace := [.fatalK], refTree := none, queryTree := none }
  else if cfg.lsInt < 0 then
    { trace := [.fatalLeaf], refTree := none, queryTree := none }
  else
    let warnEvents : List Event :=
      if cfg.singleMode ∧ cfg.naive then [.warnNaiveSingle] else []
    let leafSize : ℕ := if cfg.naive then n else cfg.lsInt.toNat
    let refT := build leafSize refs
    match cfg.query with
    | none =>
      { trace := warnEvents ++ [.buildRefTree leafSize, .search, .remapRef],
        refTree := some refT, queryTree := none }
    | some qs =>
      let leafSize2 : ℕ :=
        if cfg.naive ∧ leafSize < qs.length then qs.length else leafSize
      let qT := build leafSize2 qs
      { trace := warnEvents ++ [.buildRefTree leafSize, .loadQuery,
          .buildQueryTree leafSize2, .search, .remapQuery],
        refTree := some refT, queryTree := some qT }

/-- A run aborted by validation: a fatal event was logged (and, the log
being fatal, nothing was built). -/
def FatalBeforeTrees (o : RunOut) : Prop :=
  Event.fatalK ∈ o.trace ∨ Event.fatalLeaf ∈ o.trace

instance (o : RunOut) : Decidable (FatalBeforeTrees o) := by
  unfold FatalBeforeTrees; infer_instance

/-- Is the tree a single leaf? -/
def Tree.isLeaf : Tree → Bool
  | .leaf _ _ => true
  | .node _ _ _ => false

theorem build_single_leaf (L : ℕ) (pts : List Point) (h : pts.length ≤ L) :
    build L pts = .leaf (computeBound ((withIdx 0 pts).map Prod.snd))
      (withIdx 0 pts) := by
  unfold build
  exact buildT_single_leaf L pts.length (withIdx 0 pts)
    (by rw [withIdx_length]; exact h)

/-! ## Supporting facts for the claims -/

theorem build_perm (L : ℕ) (pts : List Point) :
    List.Perm (build L pts).pts (withIdx 0 pts) :=
  buildT_perm L pts.length (withIdx 0 pts)

theorem build_wf (d L : ℕ) (pts : List Point)
    (hd : ∀ p ∈ pts, p.length = d) : WFT (build L pts) :=
  buildT_wf d L pts.length (withIdx 0 pts)
    (fun ip hip => hd ip.2 (withIdx_snd_mem 0 pts ip hip))

theorem build_fst_nodup (L : ℕ) (pts : List Point) :
    ((build L pts).pts.map Prod.fst).Nodup := by
  rw [List.Perm.nodup_iff ((build_perm L pts).map Prod.fst)]
  exact withIdx_fst_nodup 0 pts

theorem worstD_nil (k : ℕ) : worstD k [] = ⊤ := by
  unfold worstD lastD
  split <;> rfl

theorem singleSearch_leaf (k : ℕ) (q : Point) (b : Option HRect)
    (l : List (ℕ × Point)) :
    singleSearch k q (.leaf b l) = foldOffers k q [] l := by
  unfold singleSearch
  rw [stGo_leaf, worstD_nil, if_neg (not_top_lt)]

/-- With the leaf size covering the whole set, the single-tree search is
literally the naive loop over the points in original order. -/
theorem singleSearch_degenerate (k : ℕ) (q : Point) (L : ℕ)
    (pts : List Point) (h : pts.length ≤ L) :
    singleSearch k q (build L pts) = naiveSearch k q (withIdx 0 pts) := by
  rw [build_single_leaf L pts h, singleSearch_leaf]
  rfl

theorem perQuery_untouched (F : Point → Cand → Cand)
    (qs : List (ℕ × Point)) (s : DState) (j : ℕ)
    (hj : j ∉ qs.map Prod.fst) : perQuery F qs s j = s j := by
  induction qs generalizing s with
  | nil => rfl
  | cons jq qs2 ih =>
    simp only [List.map_cons, List.mem_cons] at hj
    push_neg at hj
    have hstep : perQuery F (jq :: qs2) s
        = perQuery F qs2 (updS s jq.1 (F jq.2 (s jq.1))) := rfl
    rw [hstep, ih _ hj.2]
    exact updS_other s jq.1 _ j hj.1

theorem perQuery_slot (F : Point → Cand → Cand) (qs : List (ℕ × Point))
    (hnd : (qs.map Prod.fst).Nodup) (s : DState) :
    ∀ jq ∈ qs, perQuery F qs s jq.1 = F jq.2 (s jq.1) := by
  induction qs generalizing s with
  | nil => simp
  | cons jq0 qs2 ih =>
    simp only [List.map_cons, List.nodup_cons] at hnd
    intro jq hm
    have hstep : perQuery F (jq0 :: qs2) s
        = perQuery F qs2 (updS s jq0.1 (F jq0.2 (s jq0.1))) := rfl
    rcases List.mem_cons.mp hm with rfl | hm2
    · rw [hstep, perQuery_untouched F qs2 _ jq.1 hnd.1]
      exact updS_same s jq.1 _
    · have hne : jq.1 ≠ jq0.1 := by
        intro hcon
        exact hnd.1 (hcon ▸ List.mem_map_of_mem Prod.fst hm2)
      rw [hstep, ih hnd.2 _ jq hm2]
      rw [updS_other s jq0.1 _ jq.1 hne]

/-- On a pair of single-leaf trees the dual-tree search degenerates to the
naive loop for every query. -/
theorem dualSearch_leaf_eq_naive (k : ℕ) (qb rb : Option HRect)
    (qs R : List (ℕ × Point)) (hnd : (qs.map Prod.fst).Nodup) :
    ∀ jq ∈ qs, dualSearch k (.leaf qb qs) (.leaf rb R) jq.1
      = naiveSearch k jq.2 R := by
  intro jq hm
  have hfuel : (Tree.leaf qb qs).sz + (Tree.leaf rb R).sz = 1 + 1 := rfl
  unfold dualSearch
  rw [hfuel, dtGo_succ]
  have hall : ((Tree.leaf qb qs).pts.all fun jq2 =>
      decide (worstD k ((fun _ => ([] : Cand)) jq2.1)
        < minDistBBO (Tree.leaf qb qs).bnd (Tree.leaf rb R).bnd)) = false := by
    rw [List.all_eq_false]
    refine ⟨jq, hm, ?_⟩
    rw [worstD_nil]
    simp
  rw [hall]
  simp only [Bool.false_eq_true, if_false]
  exact perQuery_slot _ qs hnd _ jq hm

/-! ## The claims -/

/-- C3: the bound's MinDistance (to a point or to another bound) never
exceeds the true distance between any point of the bound's region and the
given point or any point of the other region, MaxDistance never falls
below it, and the degenerate empty bound (the bound of no points) reports
`+∞` as minimum distance.  Distances are squared throughout the model;
squaring is strictly monotone on nonnegative reals, so the stated
inequalities are equivalent to the Euclidean ones. -/
theorem C3_bound_soundness :
    (∀ (q y : Point) (b : HRect), InReg b y → minDistHR q b ≤ dist2 q y) ∧
    (∀ (a b : HRect) (x y : Point), InReg a x → InReg b y →
      minDistBB a b ≤ dist2 x y) ∧
    (∀ (q y : Point) (b : HRect), InReg b y → y.length ≤ q.length →
      dist2 q y ≤ maxDistHR q b) ∧
    (∀ q : Point, minDistO q (computeBound []) = ⊤) :=
  ⟨fun q y b hy => minDistHR_sound q y b hy,
   fun a b x y hx hy => minDistBB_sound a b x y hx hy,
   fun q y b hy hq => maxDistHR_sound q y b hy hq,
   fun _ => rfl⟩

/-- Witness for C3 at a concrete bound, inner point and query. -/
theorem C3_bound_soundness_witness :
    minDistHR [0, 0] [(1, 2), (3, 4)] ≤ dist2 [0, 0] [1, 3] ∧
    dist2 [0, 0] [1, 3] ≤ maxDistHR [0, 0] [(1, 2), (3, 4)] ∧
    minDistBB [(1, 2), (3, 4)] [(5, 6), (7, 8)] ≤ dist2 [2, 3] [5, 7] :=
  ⟨C3_bound_soundness.1 [0, 0] [1, 3] [(1, 2), (3, 4)] (by decide),
   C3_bound_soundness.2.2.1 [0, 0] [1, 3] [(1, 2), (3, 4)] (by decide)
     (by decide),
   C3_bound_soundness.2.1 [(1, 2), (3, 4)] [(5, 6), (7, 8)] [2, 3] [5, 7]
     (by decide) (by decide)⟩

/-- C4: `Offer` on a sorted candidate set of capacity `k` inserts in
sorted position while fewer than `k` entries are held; once full it evicts
the worst (last) entry and inserts exactly when the offered distance beats
the current worst distance, and otherwise leaves the set unchanged; the
set never exceeds `k` entries and stays sorted; `WorstDistance` is `+∞`
until `k` entries are present. -/
theorem C4_offer_semantics (k : ℕ) (hk : 0 < k) (c : Cand) (e : Entry)
    (hs : CandSorted c) (hlen : c.length ≤ k) :
    (c.length < k → offer k c e = insertCand e c ∧
      List.Perm (offer k c e) (e :: c)) ∧
    (¬ c.length < k → (e.2 : WithTop ℚ) < worstD k c →
      offer k c e = insertCand e c.dropLast) ∧
    (¬ c.length < k → ¬ (e.2 : WithTop ℚ) < worstD k c → offer k c e = c) ∧
    (offer k c e).length ≤ k ∧
    CandSorted (offer k c e) ∧
    (c.length < k → worstD k c = ⊤) := by
  refine ⟨?_, ?_, ?_, offer_length_le k hk c e hlen, offer_sorted k c e hs, ?_⟩
  · intro h
    have heq : offer k c e = insertCand e c := by unfold offer; rw [if_pos h]
    exact ⟨heq, heq ▸ insertCand_perm e c⟩
  · intro h1 h2
    unfold offer
    rw [if_neg h1, if_pos h2]
  · intro h1 h2
    unfold offer
    rw [if_neg h1, if_neg h2]
  · intro h
    exact worstD_eq_top k c h

/-- Witness for C4 at a concrete candidate set. -/
theorem C4_offer_semantics_witness :
    let c : Cand := [(5, 1), (7, 4)]
    (c.length < 3 → offer 3 c (2, 2) = insertCand (2, 2) c ∧
      List.Perm (offer 3 c (2, 2)) ((2, 2) :: c)) ∧
    (¬ c.length < 3 → ((2 : ℚ) : WithTop ℚ) < worstD 3 c →
      offer 3 c (2, 2) = insertCand (2, 2) c.dropLast) ∧
    (¬ c.length < 3 → ¬ ((2 : ℚ) : WithTop ℚ) < worstD 3 c →
      offer 3 c (2, 2) = c) ∧
    (offer 3 c (2, 2)).length ≤ 3 ∧
    CandSorted (offer 3 c (2, 2)) ∧
    (c.length < 3 → worstD 3 c = ⊤) :=
  C4_offer_semantics 3 (by decide) [(5, 1), (7, 4)] (2, 2) (by decide)
    (by decide)

/-- C1: for every reference set, query set and valid `k`, the
single-tree, dual-tree and naive searches each produce a correct
k-nearest answer for every query, and any two of them return the same
distance column and the same (index, distance) pairs up to permuting
entries tied at the cutoff distance. -/
theorem C1_search_equivalence (k d dq L Lq : ℕ) (refs queries : List Point)
    (hk : 0 < k) (hkn : k < refs.length)
    (hdr : ∀ p ∈ refs, p.length = d) (hdq : ∀ p ∈ queries, p.length = dq) :
    ∀ jq ∈ withIdx 0 queries,
      KnnCorrect k jq.2 (withIdx 0 refs)
        (naiveSearch k jq.2 (withIdx 0 refs)) ∧
      KnnCorrect k jq.2 (withIdx 0 refs)
        (singleSearch k jq.2 (build L refs)) ∧
      KnnCorrect k jq.2 (withIdx 0 refs)
        (dualSearch k (build Lq queries) (build L refs) jq.1) ∧
      SameUpToTies (singleSearch k jq.2 (build L refs))
        (naiveSearch k jq.2 (withIdx 0 refs)) ∧
      SameUpToTies (dualSearch k (build Lq queries) (build L refs) jq.1)
        (naiveSearch k jq.2 (withIdx 0 refs)) := by
  intro jq hm
  have hnd := withIdx_fst_nodup 0 refs
  have h1 := naiveSearch_knn k hk jq.2 (withIdx 0 refs) hnd
  have h2 := singleSearch_knn k hk jq.2 (withIdx 0 refs) hnd (build L refs)
    (build_wf d L refs hdr) (build_perm L refs)
  have h3 := dualSearch_knn k hk (withIdx 0 refs) hnd (build Lq queries)
    (build L refs) (build_wf dq Lq queries hdq) (build_wf d L refs hdr)
    (build_perm L refs) (build_fst_nodup Lq queries) jq
    ((build_perm Lq queries).mem_iff.mpr hm)
  exact ⟨h1, h2, h3,
    knn_sameUpToTies k jq.2 (withIdx 0 refs) _ _ h2 h1,
    knn_sameUpToTies k jq.2 (withIdx 0 refs) _ _ h3 h1⟩

/-- Witness for C1 on the spec's 4-point scenario with `k = 1`, a fully
split tree, and the query point `(5, 5)` (original column 3). -/
theorem C1_search_equivalence_witness :
    KnnCorrect 1 [(5 : ℚ), 5] (withIdx 0 [[(0 : ℚ), 0], [1, 0], [0, 1], [5, 5]])
      (naiveSearch 1 [(5 : ℚ), 5]
        (withIdx 0 [[(0 : ℚ), 0], [1, 0], [0, 1], [5, 5]])) ∧
    KnnCorrect 1 [(5 : ℚ), 5] (withIdx 0 [[(0 : ℚ), 0], [1, 0], [0, 1], [5, 5]])
      (singleSearch 1 [(5 : ℚ), 5]
        (build 1 [[(0 : ℚ), 0], [1, 0], [0, 1], [5, 5]])) ∧
    KnnCorrect 1 [(5 : ℚ), 5] (withIdx 0 [[(0 : ℚ), 0], [1, 0], [0, 1], [5, 5]])
      (dualSearch 1 (build 1 [[(0 : ℚ), 0], [1, 0], [0, 1], [5, 5]])
        (build 1 [[(0 : ℚ), 0], [1, 0], [0, 1], [5, 5]]) 3) ∧
    SameUpToTies
      (singleSearch 1 [(5 : ℚ), 5]
        (build 1 [[(0 : ℚ), 0], [1, 0], [0, 1], [5, 5]]))
      (naiveSearch 1 [(5 : ℚ), 5]
        (withIdx 0 [[(0 : ℚ), 0], [1, 0], [0, 1], [5, 5]])) ∧
    SameUpToTies
      (dualSearch 1 (build 1 [[(0 : ℚ), 0], [1, 0], [0, 1], [5, 5]])
        (build 1 [[(0 : ℚ), 0], [1, 0], [0, 1], [5, 5]]) 3)
      (naiveSearch 1 [(5 : ℚ), 5]
        (withIdx 0 [[(0 : ℚ), 0], [1, 0], [0, 1], [5, 5]])) :=
  C1_search_equivalence 1 2 2 1 1
    [[(0 : ℚ), 0], [1, 0], [0, 1], [5, 5]]
    [[(0 : ℚ), 0], [1, 0], [0, 1], [5, 5]]
    (by decide) (by decide) (by decide) (by decide)
    (3, [(5 : ℚ), 5]) (by decide)

/-- C5 fails as stated: a run with a perfectly valid `k` still terminates
fatally before any tree construction when the requested leaf size is
negative (allknn_main.cpp lines 90-95), so "fatal before tree
construction" is not equivalent to "k outside (0, n)".  Concretely: three
reference points, `k = 1` (inside (0, 3)), `leaf_size = -1`. -/
theorem C5_counterexample :
    FatalBeforeTrees (run ⟨1, -1, false, false, none⟩ [[0], [1], [2]]) ∧
    (0 : ℤ) < 1 ∧ (1 : ℤ) < ([[0], [1], [2]] : List Point).length := by
  refine ⟨?_, by decide, by decide⟩
  have hrun : run ⟨1, -1, false, false, none⟩ [[0], [1], [2]]
      = { trace := [.fatalLeaf], refTree := none, queryTree := none } := by
    rfl
  rw [hrun]
  exact Or.inr (by decide)

/-- C5 amended: the program terminates fatally before any tree
construction exactly when `k` is outside the open interval
`(0, numReferencePoints)` **or the requested leaf size is negative**; in
particular an empty reference set always fails at validation, and a fatal
validation means no tree is ever constructed.  (`k` is read as an `int`
and stored into a `size_t`, so a negative `k` wraps above `2^63` and is
caught by the `k >= n` test; the integer-range hypotheses reflect the
`int` parameter and realistic matrix sizes.) -/
theorem C5_validation (cfg : Config) (refs : List Point)
    (hk1 : -(2 : ℤ) ^ 31 ≤ cfg.k) (hk2 : cfg.k < 2 ^ 31)
    (hn : refs.length < 2 ^ 31) :
    (FatalBeforeTrees (run cfg refs) ↔
      (cfg.k ≤ 0 ∨ (refs.length : ℤ) ≤ cfg.k ∨ cfg.lsInt < 0)) ∧
    (refs.length = 0 → FatalBeforeTrees (run cfg refs)) ∧
    (FatalBeforeTrees (run cfg refs) →
      (run cfg refs).refTree = none ∧ (run cfg refs).queryTree = none) := by
  have h64 : (2 : ℤ) ^ 64 = 18446744073709551616 := by norm_num
  have h31 : (2 : ℤ) ^ 31 = 2147483648 := by norm_num
  have h31n : (2 : ℕ) ^ 31 = 2147483648 := by norm_num
  rw [h31] at hk2 hk1
  rw [h31n] at hn
  have hks : (kAsSizeT cfg.k ≤ 0 ∨ kAsSizeT cfg.k ≥ refs.length) ↔
      (cfg.k ≤ 0 ∨ (refs.length : ℤ) ≤ cfg.k) := by
    unfold kAsSizeT
    rw [h64]
    omega
  by_cases h1 : kAsSizeT cfg.k ≤ 0 ∨ kAsSizeT cfg.k ≥ refs.length
  · have hrun : run cfg refs
        = { trace := [.fatalK], refTree := none, queryTree := none } := by
      simp only [run]
      rw [if_pos h1]
    rw [hrun]
    refine ⟨?_, fun _ => Or.inl (by simp [FatalBeforeTrees]), fun _ => ⟨rfl, rfl⟩⟩
    simp only [FatalBeforeTrees, List.mem_singleton]
    constructor
    · intro _
      rcases hks.mp h1 with h | h
      · exact Or.inl h
      · exact Or.inr (Or.inl h)
    · intro _
      exact Or.inl (by decide)
  · by_cases h2 : cfg.lsInt < 0
    · have hrun : run cfg refs
          = { trace := [.fatalLeaf], refTree := none, queryTree := none } := by
        simp only [run]
        rw [if_neg h1, if_pos h2]
      rw [hrun]
      refine ⟨?_, ?_, fun _ => ⟨rfl, rfl⟩⟩
      · simp only [FatalBeforeTrees, List.mem_singleton]
        constructor
        · intro _
          exact Or.inr (Or.inr h2)
        · intro _
          exact Or.inr (by decide)
      · intro hzero
        exact Or.inr (by simp [FatalBeforeTrees])
    · have hempty : refs.length ≠ 0 := by
        intro hzero
        exact h1 (Or.inr (by omega))
      have hnf : ¬ FatalBeforeTrees (run cfg refs) := by
        simp only [run]
        rw [if_neg h1, if_neg h2]
        rcases cfg.query with _ | qs <;>
          · simp only [FatalBeforeTrees]
            by_cases hw : cfg.singleMode ∧ cfg.naive <;>
              simp [hw, List.mem_append]
      refine ⟨⟨fun hf => absurd hf hnf, ?_⟩, fun hzero => absurd hzero hempty,
        fun hf => absurd hf hnf⟩
      intro hrhs
      exfalso
      rcases hrhs with h | h | h
      · exact h1 (hks.mpr (Or.inl h))
      · exact h1 (hks.mpr (Or.inr h))
      · exact h2 h

/-- Witness for the amended C5 at a concrete invalid and valid pair of
runs is provided by instantiating at a negative leaf size. -/
theorem C5_validation_witness :
    (FatalBeforeTrees (run ⟨1, -1, false, false, none⟩ [[0], [1], [2]]) ↔
      ((1 : ℤ) ≤ 0 ∨ (([[0], [1], [2]] : List Point).length : ℤ) ≤ 1 ∨
        (-1 : ℤ) < 0)) ∧
    (([[0], [1], [2]] : List Point).length = 0 →
      FatalBeforeTrees (run ⟨1, -1, false, false, none⟩ [[0], [1], [2]])) ∧
    (FatalBeforeTrees (run ⟨1, -1, false, false, none⟩ [[0], [1], [2]]) →
      (run ⟨1, -1, false, false, none⟩ [[0], [1], [2]]).refTree = none ∧
      (run ⟨1, -1, false, false, none⟩ [[0], [1], [2]]).queryTree = none) :=
  C5_validation ⟨1, -1, false, false, none⟩ [[0], [1], [2]]
    (by norm_num) (by norm_num) (by norm_num)

/-- C6: when both `naive` and `single_mode` are given the program emits a
non-fatal warning; whenever `naive` is given the reference tree is built
with leaf size equal to the reference set size, degenerating it (and the
query tree, whose leaf size is raised at least to its own set size) to a
single leaf, on which both the single-tree and the dual-tree searches
coincide exactly with the naive nested loop — `naive` thereby overrides
`single_mode`. -/
theorem C6_naive_override (cfg : Config) (refs : List Point)
    (h1 : ¬ (kAsSizeT cfg.k ≤ 0 ∨ kAsSizeT cfg.k ≥ refs.length))
    (h2 : ¬ cfg.lsInt < 0) :
    (Event.warnNaiveSingle ∈ (run cfg refs).trace ↔
      (cfg.singleMode ∧ cfg.naive)) ∧
    (cfg.naive = true →
      Event.buildRefTree refs.length ∈ (run cfg refs).trace ∧
      (run cfg refs).refTree = some (build refs.length refs) ∧
      (build refs.length refs).isLeaf = true ∧
      (∀ qt2, (run cfg refs).queryTree = some qt2 → qt2.isLeaf = true) ∧
      (∀ (kk : ℕ) (q : Point),
        singleSearch kk q (build refs.length refs)
          = naiveSearch kk q (withIdx 0 refs)) ∧
      (∀ (kk : ℕ) (qt2 rt : Tree), (run cfg refs).queryTree = some qt2 →
        (run cfg refs).refTree = some rt →
        ∀ jq ∈ qt2.pts,
          dualSearch kk qt2 rt jq.1 = naiveSearch kk jq.2 rt.pts)) := by
  have hrun : run cfg refs =
      (let warnEvents : List Event :=
        if cfg.singleMode ∧ cfg.naive then [.warnNaiveSingle] else []
      let leafSize : ℕ := if cfg.naive then refs.length else cfg.lsInt.toNat
      let refT := build leafSize refs
      match cfg.query with
      | none =>
        { trace := warnEvents ++ [.buildRefTree leafSize, .search, .remapRef],
          refTree := some refT, queryTree := none }
      | some qs =>
        let leafSize2 : ℕ :=
          if cfg.naive ∧ leafSize < qs.length then qs.length else leafSize
        let qT := build leafSize2 qs
        { trace := warnEvents ++ [.buildRefTree leafSize, .loadQuery,
            .buildQueryTree leafSize2, .search, .remapQuery],
          refTree := some refT, queryTree := some qT }) := by
    simp only [run]
    rw [if_neg h1, if_neg h2]
  constructor
  · rw [hrun]
    rcases cfg.query with _ | qs <;>
      · by_cases hw : cfg.singleMode ∧ cfg.naive <;>
          simp [hw, List.mem_append]
  · intro hnaive
    have hleaf : (if cfg.naive then refs.length else cfg.lsInt.toNat)
        = refs.length := by rw [hnaive]; rfl
    have hrefleaf : (build refs.length refs).isLeaf = true := by
      rw [build_single_leaf refs.length refs (le_refl _)]
      rfl
    have hsingle : ∀ (kk : ℕ) (q : Point),
        singleSearch kk q (build refs.length refs)
          = naiveSearch kk q (withIdx 0 refs) :=
      fun kk q => singleSearch_degenerate kk q refs.length refs (le_refl _)
    rcases hq : cfg.query with _ | qs
    · rw [hrun]
      simp only [hq, hleaf]
      refine ⟨by simp [List.mem_append], by simp, hrefleaf, ?_, hsingle, ?_⟩
      · intro qt2 hcon
        simp at hcon
      · intro kk qt2 rt hcon
        simp at hcon
    · rw [hrun]
      simp only [hq, hleaf]
      have hqleafsize : qs.length ≤
          if cfg.naive ∧ refs.length < qs.length then qs.length
          else refs.length := by
        by_cases hc : cfg.naive ∧ refs.length < qs.length
        · rw [if_pos hc]
        · rw [if_neg hc]
          rcases Nat.lt_or_ge qs.length (refs.length + 1) with hlt | hge
          · omega
          · exfalso
            exact hc ⟨by rw [hnaive], by omega⟩
      refine ⟨by simp [List.mem_append], by simp, hrefleaf, ?_, hsingle, ?_⟩
      · intro qt2 hq2
        have hq2eq : qt2 = build
            (if cfg.naive ∧ refs.length < qs.length then qs.length
              else refs.length) qs := by
          injection hq2 with h
          exact h.symm
        rw [hq2eq, build_single_leaf _ qs hqleafsize]
        rfl
      · intro kk qt2 rt hq2 hr2
        have hq2eq : qt2 = build
            (if cfg.naive ∧ refs.length < qs.length then qs.length
              else refs.length) qs := by
          injection hq2 with h
          exact h.symm
        have hr2eq : rt = build refs.length refs := by
          injection hr2 with h
          exact h.symm
        rw [hq2eq, hr2eq, build_single_leaf _ qs hqleafsize,
          build_single_leaf refs.length refs (le_refl _)]
        intro jq hm
        exact dualSearch_leaf_eq_naive kk _ _ _ _ (withIdx_fst_nodup 0 qs)
          jq hm

/-- Witness for C6 on a concrete naive + single-mode run. -/
theorem C6_naive_override_witness :
    let cfg : Config := ⟨1, 20, true, true, none⟩
    let refs : List Point := [[0], [1], [2]]
    (Event.warnNaiveSingle ∈ (run cfg refs).trace ↔
      (cfg.singleMode ∧ cfg.naive)) ∧
    (cfg.naive = true →
      Event.buildRefTree refs.length ∈ (run cfg refs).trace ∧
      (run cfg refs).refTree = some (build refs.length refs) ∧
      (build refs.length refs).isLeaf = true ∧
      (∀ qt2, (run cfg refs).queryTree = some qt2 → qt2.isLeaf = true) ∧
      (∀ (kk : ℕ) (q : Point),
        singleSearch kk q (build refs.length refs)
          = naiveSearch kk q (withIdx 0 refs)) ∧
      (∀ (kk : ℕ) (qt2 rt : Tree), (run cfg refs).queryTree = some qt2 →
        (run cfg refs).refTree = some rt →
        ∀ jq ∈ qt2.pts,
          dualSearch kk qt2 rt jq.1 = naiveSearch kk jq.2 rt.pts)) :=
  C6_naive_override ⟨1, 20, true, true, none⟩ [[0], [1], [2]]
    (by decide) (by decide)

/-- C7 fails as stated: a requested leaf size of 0 is *accepted* — the
check at allknn_main.cpp lines 90-95 rejects only negative values ("Must
be greater than or equal to 0"), and a run with `leaf_size = 0` proceeds
to tree construction. -/
theorem C7_counterexample :
    ¬ FatalBeforeTrees (run ⟨1, 0, false, false, none⟩ [[0], [1], [2]]) ∧
    (run ⟨1, 0, false, false, none⟩ [[0], [1], [2]]).refTree ≠ none := by
  constructor
  · intro hf
    rcases hf with h | h <;> revert h <;> decide
  · intro h
    revert h
    decide

/-- C7 amended: only a *negative* requested leaf size is invalid and
rejected before tree construction; a leaf size of 0 (or any nonnegative
value) passes validation and the tree is built. -/
theorem C7_leaf_validation (cfg : Config) (refs : List Point)
    (h1 : ¬ (kAsSizeT cfg.k ≤ 0 ∨ kAsSizeT cfg.k ≥ refs.length)) :
    (Event.fatalLeaf ∈ (run cfg refs).trace ↔ cfg.lsInt < 0) ∧
    (0 ≤ cfg.lsInt → (run cfg refs).refTree ≠ none) := by
  by_cases h2 : cfg.lsInt < 0
  · have hrun : run cfg refs
        = { trace := [.fatalLeaf], refTree := none, queryTree := none } := by
      simp only [run]
      rw [if_neg h1, if_pos h2]
    rw [hrun]
    exact ⟨by simp [h2], fun hge => absurd h2 (by omega)⟩
  · have hrun : run cfg refs =
        (let warnEvents : List Event :=
          if cfg.singleMode ∧ cfg.naive then [.warnNaiveSingle] else []
        let leafSize : ℕ := if cfg.naive then refs.length else cfg.lsInt.toNat
        let refT := build leafSize refs
        match cfg.query with
        | none =>
          { trace := warnEvents ++ [.buildRefTree leafSize, .search, .remapRef],
            refTree := some refT, queryTree := none }
        | some qs =>
          let leafSize2 : ℕ :=
            if cfg.naive ∧ leafSize < qs.length then qs.length else leafSize
          let qT := build leafSize2 qs
          { trace := warnEvents ++ [.buildRefTree leafSize, .loadQuery,
              .buildQueryTree leafSize2, .search, .remapQuery],
            refTree := some refT, queryTree := some qT }) := by
      simp only [run]
      rw [if_neg h1, if_neg h2]
    rw [hrun]
    constructor
    · rcases cfg.query with _ | qs <;>
        · by_cases hw : cfg.singleMode ∧ cfg.naive <;> simp [hw, h2]
    · intro _
      rcases cfg.query with _ | qs <;> simp

/-- Witness for the amended C7 at leaf size 0. -/
theorem C7_leaf_validation_witness :
    (Event.fatalLeaf ∈ (run ⟨1, 0, false, false, none⟩ [[0], [1], [2]]).trace
      ↔ (0 : ℤ) < 0) ∧
    ((0 : ℤ) ≤ 0 →
      (run ⟨1, 0, false, false, none⟩ [[0], [1], [2]]).refTree ≠ none) :=
  C7_leaf_validation ⟨1, 0, false, false, none⟩ [[0], [1], [2]] (by decide)

/-- C9: in naive mode with a separate query file the reference tree is
built with leaf size equal to the number of reference points *before* the
query matrix is loaded; the shared leaf-size variable is then raised to
the query count only when the query set is larger, so the query tree is
built with leaf size `max numReferencePoints numQueryPoints`, and both
trees are single leaves. -/
theorem C9_naive_query_order (cfg : Config) (refs qs : List Point)
    (h1 : ¬ (kAsSizeT cfg.k ≤ 0 ∨ kAsSizeT cfg.k ≥ refs.length))
    (h2 : ¬ cfg.lsInt < 0) (hnaive : cfg.naive = true)
    (hq : cfg.query = some qs) :
    (run cfg refs).trace =
      (if cfg.singleMode then [Event.warnNaiveSingle] else []) ++
      [.buildRefTree refs.length, .loadQuery,
       .buildQueryTree (max refs.length qs.length), .search, .remapQuery] ∧
    (run cfg refs).refTree = some (build refs.length refs) ∧
    (run cfg refs).queryTree
      = some (build (max refs.length qs.length) qs) ∧
    (build refs.length refs).isLeaf = true ∧
    (build (max refs.length qs.length) qs).isLeaf = true := by
  have hrun : run cfg refs =
      (let warnEvents : List Event :=
        if cfg.singleMode ∧ cfg.naive then [.warnNaiveSingle] else []
      let leafSize : ℕ := if cfg.naive then refs.length else cfg.lsInt.toNat
      let refT := build leafSize refs
      match cfg.query with
      | none =>
        { trace := warnEvents ++ [.buildRefTree leafSize, .search, .remapRef],
          refTree := some refT, queryTree := none }
      | some qs2 =>
        let leafSize2 : ℕ :=
          if cfg.naive ∧ leafSize < qs2.length then qs2.length else leafSize
        let qT := build leafSize2 qs2
        { trace := warnEvents ++ [.buildRefTree leafSize, .loadQuery,
            .buildQueryTree leafSize2, .search, .remapQuery],
          refTree := some refT, queryTree := some qT }) := by
    simp only [run]
    rw [if_neg h1, if_neg h2]
  have hwarn : (if cfg.singleMode ∧ cfg.naive then [Event.warnNaiveSingle]
      else []) = (if cfg.singleMode then [Event.warnNaiveSingle] else []) := by
    rw [hnaive]
    by_cases hs : cfg.singleMode = true
    · rw [hs]
      rfl
    · have hs2 : cfg.singleMode = false := by
        rcases hsm : cfg.singleMode with _ | _
        · rfl
        · exact absurd hsm hs
      rw [hs2]
      rfl
  have hleaf : (if cfg.naive then refs.length else cfg.lsInt.toNat)
      = refs.length := by rw [hnaive]; rfl
  have hleaf2 : (if cfg.naive ∧ refs.length < qs.length then qs.length
      else refs.length) = max refs.length qs.length := by
    rw [hnaive]
    by_cases hc : refs.length < qs.length
    · simp only [true_and, if_pos hc]
      omega
    · simp only [true_and, if_neg hc]
      omega
  rw [hrun]
  simp only [hq, hleaf, hleaf2, hwarn]
  refine ⟨by simp, by simp, by simp, ?_, ?_⟩
  · rw [build_single_leaf refs.length refs (le_refl _)]
    rfl
  · rw [build_single_leaf (max refs.length qs.length) qs (le_max_right _ _)]
    rfl

/-- Witness for C9 on a concrete naive run with a query file. -/
theorem C9_naive_query_order_witness :
    let cfg : Config := ⟨1, 20, true, false, some [[5], [6]]⟩
    let refs : List Point := [[0], [1], [2]]
    (run cfg refs).trace =
      (if cfg.singleMode then [Event.warnNaiveSingle] else []) ++
      [.buildRefTree refs.length, .loadQuery,
       .buildQueryTree (max refs.length [[(5 : ℚ)], [6]].length), .search,
       .remapQuery] ∧
    (run cfg refs).refTree = some (build refs.length refs) ∧
    (run cfg refs).queryTree
      = some (build (max refs.length [[(5 : ℚ)], [6]].length) [[(5 : ℚ)], [6]]) ∧
    (build refs.length refs).isLeaf = true ∧
    (build (max refs.length [[(5 : ℚ)], [6]].length) [[(5 : ℚ)], [6]]).isLeaf
      = true :=
  C9_naive_query_order ⟨1, 20, true, false, some [[5], [6]]⟩
    [[0], [1], [2]] [[5], [6]] (by decide) (by decide) rfl rfl

theorem getD_map_lt {α β : Type} (f : α → β) (l : List α) (i : ℕ)
    (hi : i < l.length) (d2 : β) (d : α) :
    (l.map f).getD i d2 = f (l.getD i d) := by
  rw [List.getD_eq_getElem?_getD, List.getD_eq_getElem?_getD,
    List.getElem?_map, List.getElem?_eq_getElem hi]
  rfl

theorem getD_mem_of_lt {α : Type} (l : List α) (i : ℕ) (hi : i < l.length)
    (d : α) : l.getD i d ∈ l := by
  rw [List.getD_eq_getElem l d hi]
  exact List.getElem_mem hi

/-- Core of the remapping loop's correctness: with the column permutation
a permutation of the query indices, every output column is the matching
input column, neighbor entries are rewritten through the reference
permutation, and correctness on the reordered matrices transports to the
original matrices. -/
theorem remap_core (origQ origR : List Point) (oldQ oldR : List ℕ)
    (distIn : List (List ℚ)) (nbIn : List (List ℕ)) (kk : ℕ)
    (hQ : List.Perm oldQ (List.range origQ.length))
    (hdl : distIn.length = origQ.length) (hnl : nbIn.length = origQ.length)
    (hcl : ∀ col ∈ nbIn, col.length = kk)
    (hvalid : ∀ i < origQ.length, ∀ j < kk,
      (distIn.getD i []).getD j 0
        = dist2 (origQ.getD (oldQ.getD i 0) [])
            (origR.getD (oldR.getD ((nbIn.getD i []).getD j 0) 0) [])) :
    (∀ i < origQ.length,
      (remapResults oldQ oldR distIn nbIn).1.getD (oldQ.getD i 0) []
        = distIn.getD i []) ∧
    (∀ i < origQ.length,
      (remapResults oldQ oldR distIn nbIn).2.getD (oldQ.getD i 0) []
        = (nbIn.getD i []).map (fun v => oldR.getD v 0)) ∧
    (∀ c < origQ.length, ∀ j < kk,
      ((remapResults oldQ oldR distIn nbIn).1.getD c []).getD j 0
        = dist2 (origQ.getD c [])
            (origR.getD
              (((remapResults oldQ oldR distIn nbIn).2.getD c []).getD j 0)
              [])) := by
  have hlenQ : oldQ.length = origQ.length := by
    rw [hQ.length_eq, List.length_range]
  have hndQ : oldQ.Nodup := hQ.nodup_iff.mpr (List.nodup_range _)
  have hpos : ∀ i, i < oldQ.length → oldQ.getD i 0 < origQ.length := by
    intro i hi
    have hmem : oldQ.getD i 0 ∈ oldQ := getD_mem_of_lt oldQ i hi 0
    exact List.mem_range.mp (hQ.mem_iff.mp hmem)
  have hcols : ∀ i < origQ.length,
      (remapResults oldQ oldR distIn nbIn).1.getD (oldQ.getD i 0) []
        = distIn.getD i [] := by
    intro i hi
    exact scatter_getD oldQ distIn _ hndQ i (by omega) (by omega)
      (by rw [List.length_replicate, hdl]; exact hpos i (by omega))
  have hnbcols : ∀ i < origQ.length,
      (remapResults oldQ oldR distIn nbIn).2.getD (oldQ.getD i 0) []
        = (nbIn.getD i []).map (fun v => oldR.getD v 0) := by
    intro i hi
    have h1 : (scatter oldQ
        (nbIn.map fun col => col.map fun v => oldR.getD v 0)
        (List.replicate nbIn.length [])).getD (oldQ.getD i 0) ([] : List ℕ)
        = (nbIn.map fun col => col.map fun v => oldR.getD v 0).getD i
            ([] : List ℕ) :=
      scatter_getD oldQ
        (nbIn.map fun col => col.map fun v => oldR.getD v 0)
        (List.replicate nbIn.length []) hndQ i
        (by omega) (by rw [List.length_map]; omega)
        (by rw [List.length_replicate, hnl]; exact hpos i (by omega))
    have h2 : ((nbIn.map fun col => col.map fun v => oldR.getD v 0).getD i
        ([] : List ℕ)) = (nbIn.getD i []).map (fun v => oldR.getD v 0) :=
      getD_map_lt _ nbIn i (by omega) ([] : List ℕ) ([] : List ℕ)
    exact h1.trans h2
  refine ⟨hcols, hnbcols, ?_⟩
  intro c hc j hj
  rcases perm_range_surj oldQ origQ.length hQ c hc with ⟨i, hi, hieq⟩
  have hi2 : i < origQ.length := by omega
  have hd := hcols i hi2
  have hn := hnbcols i hi2
  rw [hieq] at hd hn
  rw [hd, hn]
  have hcollen : (nbIn.getD i []).length = kk :=
    hcl _ (getD_mem_of_lt nbIn i (by omega) [])
  rw [getD_map_lt _ (nbIn.getD i []) j (by omega) (0 : ℕ) (0 : ℕ)]
  have := hvalid i hi2 j hj
  rw [hieq] at this
  exact this

/-- C2: the permutation `oldFromNew` produced by tree construction is a
bijection on `[0, N)` (a permutation of `range N`), and the final
remapping loop (allknn_main.cpp lines 179-191) rewrites every
neighbor-index entry through the reference permutation and reorders the
result columns through the query permutation, so that whenever the search
output is correct on the reordered matrices, every output cell relates
the *original* query and reference points: column `j` holds the results
of original query `j`, row `i` the i-th best. -/
theorem C2_remap_correct (L : ℕ) (refs : List Point)
    (origQ origR : List Point) (oldQ oldR : List ℕ)
    (distIn : List (List ℚ)) (nbIn : List (List ℕ)) (kk : ℕ)
    (hQ : List.Perm oldQ (List.range origQ.length))
    (hdl : distIn.length = origQ.length) (hnl : nbIn.length = origQ.length)
    (hcl : ∀ col ∈ nbIn, col.length = kk)
    (hvalid : ∀ i < origQ.length, ∀ j < kk,
      (distIn.getD i []).getD j 0
        = dist2 (origQ.getD (oldQ.getD i 0) [])
            (origR.getD (oldR.getD ((nbIn.getD i []).getD j 0) 0) [])) :
    List.Perm (oldFromNew (build L refs)) (List.range refs.length) ∧
    (∀ i < origQ.length,
      (remapResults oldQ oldR distIn nbIn).1.getD (oldQ.getD i 0) []
        = distIn.getD i []) ∧
    (∀ c < origQ.length, ∀ j < kk,
      ((remapResults oldQ oldR distIn nbIn).1.getD c []).getD j 0
        = dist2 (origQ.getD c [])
            (origR.getD
              (((remapResults oldQ oldR distIn nbIn).2.getD c []).getD j 0)
              [])) := by
  have hbij : List.Perm (oldFromNew (build L refs))
      (List.range refs.length) := by
    unfold oldFromNew
    refine ((build_perm L refs).map Prod.fst).trans ?_
    rw [withIdx_map_fst, List.range_eq_range']
  have hcore := remap_core origQ origR oldQ oldR distIn nbIn kk hQ hdl hnl
    hcl hvalid
  exact ⟨hbij, hcore.1, hcore.2.2⟩

/-- Witness for C2 on a concrete two-point instance. -/
theorem C2_remap_correct_witness :
    List.Perm (oldFromNew (build 1 [[(0 : ℚ)], [0]]))
      (List.range ([[(0 : ℚ)], [0]] : List Point).length) ∧
    (∀ i < ([[(0 : ℚ)], [0]] : List Point).length,
      (remapResults [0, 1] [0, 1] [[0], [0]] [[0], [1]]).1.getD
          (List.getD [0, 1] i 0) []
        = List.getD [[(0 : ℚ)], [0]] i []) ∧
    (∀ c < ([[(0 : ℚ)], [0]] : List Point).length, ∀ j < 1,
      (((remapResults [0, 1] [0, 1] [[0], [0]] [[0], [1]]).1.getD c []).getD
          j 0)
        = dist2 (List.getD ([[(0 : ℚ)], [0]] : List Point) c [])
            (List.getD ([[(0 : ℚ)], [0]] : List Point)
              (((remapResults [0, 1] [0, 1] [[0], [0]]
                  [[0], [1]]).2.getD c []).getD j 0) [])) :=
  C2_remap_correct 1 [[(0 : ℚ)], [0]] [[(0 : ℚ)], [0]] [[(0 : ℚ)], [0]]
    [0, 1] [0, 1] [[0], [0]] [[0], [1]] 1
    (by decide) (by decide) (by decide) (by decide)
    (by intro i hi j hj
        simp only [List.length_cons, List.length_nil] at hi
        interval_cases i <;> interval_cases j <;> simp [dist2])

/-- C10: when no query file is given, the final remapping (allknn_main.cpp
lines 193-206) reorders the result columns too, using the reference
permutation `oldFromNewRefs` both for the column positions and for the
neighbor-index entries, so the output is in original reference-point
order even though no separate query tree exists. -/
theorem C10_noquery_remap (origR : List Point) (oldR : List ℕ)
    (distIn : List (List ℚ)) (nbIn : List (List ℕ)) (kk : ℕ)
    (hR : List.Perm oldR (List.range origR.length))
    (hdl : distIn.length = origR.length) (hnl : nbIn.length = origR.length)
    (hcl : ∀ col ∈ nbIn, col.length = kk)
    (hvalid : ∀ i < origR.length, ∀ j < kk,
      (distIn.getD i []).getD j 0
        = dist2 (origR.getD (oldR.getD i 0) [])
            (origR.getD (oldR.getD ((nbIn.getD i []).getD j 0) 0) [])) :
    (∀ i < origR.length,
      (remapResults oldR oldR distIn nbIn).1.getD (oldR.getD i 0) []
        = distIn.getD i [] ∧
      (remapResults oldR oldR distIn nbIn).2.getD (oldR.getD i 0) []
        = (nbIn.getD i []).map (fun v => oldR.getD v 0)) ∧
    (∀ c < origR.length, ∀ j < kk,
      ((remapResults oldR oldR distIn nbIn).1.getD c []).getD j 0
        = dist2 (origR.getD c [])
            (origR.getD
              (((remapResults oldR oldR distIn nbIn).2.getD c []).getD j 0)
              [])) := by
  have hcore := remap_core origR origR oldR oldR distIn nbIn kk hR hdl hnl
    hcl hvalid
  exact ⟨fun i hi => ⟨hcore.1 i hi, hcore.2.1 i hi⟩, hcore.2.2⟩

/-- Witness for C10 on a concrete two-point instance. -/
theorem C10_noquery_remap_witness :
    (∀ i < ([[(0 : ℚ)], [0]] : List Point).length,
      (remapResults [1, 0] [1, 0] [[0], [0]] [[0], [1]]).1.getD
          (List.getD [1, 0] i 0) []
        = List.getD [[(0 : ℚ)], [0]] i [] ∧
      (remapResults [1, 0] [1, 0] [[0], [0]] [[0], [1]]).2.getD
          (List.getD [1, 0] i 0) []
        = (List.getD [[0], [1]] i []).map (fun v => List.getD [1, 0] v 0)) ∧
    (∀ c < ([[(0 : ℚ)], [0]] : List Point).length, ∀ j < 1,
      (((remapResults [1, 0] [1, 0] [[0], [0]] [[0], [1]]).1.getD c []).getD
          j 0)
        = dist2 (List.getD ([[(0 : ℚ)], [0]] : List Point) c [])
            (List.getD ([[(0 : ℚ)], [0]] : List Point)
              (((remapResults [1, 0] [1, 0] [[0], [0]]
                  [[0], [1]]).2.getD c []).getD j 0) [])) :=
  C10_noquery_remap [[(0 : ℚ)], [0]] [1, 0] [[0], [0]] [[0], [1]] 1
    (by decide) (by decide) (by decide) (by decide)
    (by intro i hi j hj
        simp only [List.length_cons, List.length_nil] at hi
        interval_cases i <;> interval_cases j <;> simp [dist2])

/-- C8: for every query the distances held for it are non-decreasing from
best to worst in all three search strategies (the per-query result column
is sorted), and the remapping loop copies whole columns, so sortedness of
every column survives the final remap. -/
theorem C8_sorted_columns (k d dq L Lq : ℕ) (refs queries : List Point)
    (hk : 0 < k)
    (hdr : ∀ p ∈ refs, p.length = d) (hdq : ∀ p ∈ queries, p.length = dq) :
    (∀ jq ∈ withIdx 0 queries,
      ((naiveSearch k jq.2 (withIdx 0 refs)).map Prod.snd).Sorted (· ≤ ·) ∧
      ((singleSearch k jq.2 (build L refs)).map Prod.snd).Sorted (· ≤ ·) ∧
      ((dualSearch k (build Lq queries) (build L refs) jq.1).map
        Prod.snd).Sorted (· ≤ ·)) ∧
    (∀ (oldCols oldIdx : List ℕ) (distIn : List (List ℚ))
        (nbIn : List (List ℕ)),
      (∀ col ∈ distIn, col.Sorted (· ≤ ·)) →
      ∀ col ∈ (remapResults oldCols oldIdx distIn nbIn).1,
        col.Sorted (· ≤ ·)) := by
  constructor
  · intro jq hm
    have hnd := withIdx_fst_nodup 0 refs
    have h1 := naiveSearch_knn k hk jq.2 (withIdx 0 refs) hnd
    have h2 := singleSearch_knn k hk jq.2 (withIdx 0 refs) hnd (build L refs)
      (build_wf d L refs hdr) (build_perm L refs)
    have h3 := dualSearch_knn k hk (withIdx 0 refs) hnd (build Lq queries)
      (build L refs) (build_wf dq Lq queries hdq) (build_wf d L refs hdr)
      (build_perm L refs) (build_fst_nodup Lq queries) jq
      ((build_perm Lq queries).mem_iff.mpr hm)
    refine ⟨?_, ?_, ?_⟩ <;>
      · rw [List.Sorted, List.pairwise_map]
        first
          | exact h1.sorted
          | exact h2.sorted
          | exact h3.sorted
  · intro oldCols oldIdx distIn nbIn hin col hcol
    rcases scatter_col_src oldCols distIn _ col hcol with h | h
    · exact hin col h
    · rw [List.eq_of_mem_replicate h]
      exact List.sorted_nil

/-- Witness for C8 on a concrete instance. -/
theorem C8_sorted_columns_witness :
    (∀ jq ∈ withIdx 0 [[(0 : ℚ)], [3]],
      ((naiveSearch 1 jq.2 (withIdx 0 [[(0 : ℚ)], [3]])).map
        Prod.snd).Sorted (· ≤ ·) ∧
      ((singleSearch 1 jq.2 (build 1 [[(0 : ℚ)], [3]])).map
        Prod.snd).Sorted (· ≤ ·) ∧
      ((dualSearch 1 (build 1 [[(0 : ℚ)], [3]]) (build 1 [[(0 : ℚ)], [3]])
        jq.1).map Prod.snd).Sorted (· ≤ ·)) ∧
    (∀ (oldCols oldIdx : List ℕ) (distIn : List (List ℚ))
        (nbIn : List (List ℕ)),
      (∀ col ∈ distIn, col.Sorted (· ≤ ·)) →
      ∀ col ∈ (remapResults oldCols oldIdx distIn nbIn).1,
        col.Sorted (· ≤ ·)) :=
  C8_sorted_columns 1 1 1 1 1 [[(0 : ℚ)], [3]] [[(0 : ℚ)], [3]]
    (by decide) (by decide) (by decide)

end AllKnn
